import Mathlib

/-!
# Verification of the batch-processing and version-management core

This file gives a shallow embedding, in Lean 4, of the batch coordinator
(`backend/services/batch_processor.py`) and the version manager
(`backend/services/version_manager.py`) of the Legal-Document-Review-Assistant
repository, and proves (or refutes) the frozen specification claims about them.

Modelling conventions:
* The JSON file stores are modelled as pure values: the folder of batch files
  as a function `String → Option BatchData`, the folder of processed-document
  files as a function `String → Option DocData`, and the folder of version
  files as a `List VersionRec` (one element per file, in directory order;
  file names are the `(document_id, version_number)` keys, so key-uniqueness
  of the list corresponds to file-name uniqueness on disk).
* Python exceptions are modelled with `Option`/`Except`: a function which can
  raise returns `none` / `Except.error`.
* Python `float` arithmetic (used by the progress-percentage computation
  `int((completed / total) * 100)`) is modelled exactly: `rnd64 q` is the
  IEEE-754 binary64 round-to-nearest-even of the rational `q` (normal range;
  the inputs that occur here are ratios in `(0, 1]` scaled by `100`, far from
  underflow/overflow), so `pyProgress c t` is exactly the integer the Python
  expression produces.
* Other numeric fields (risk scores) are modelled as rationals, with Python's
  `round(x, 2)` modelled as decimal rounding half-to-even (`round2`).
-/

/-! ## Exact model of the binary64 arithmetic used for the progress field -/

/-- `2 ^ e` as a rational, computably, for an integer exponent `e`. -/
def pow2 (e : ℤ) : ℚ :=
  if 0 ≤ e then ((2 ^ e.toNat : ℕ) : ℚ) else 1 / ((2 ^ (-e).toNat : ℕ) : ℚ)

theorem pow2_eq_zpow (e : ℤ) : pow2 e = (2 : ℚ) ^ e := by
  unfold pow2
  split
  · rename_i h
    rw [show ((2 ^ e.toNat : ℕ) : ℚ) = (2 : ℚ) ^ e.toNat by push_cast; ring, ← zpow_natCast,
      Int.toNat_of_nonneg h]
  · rename_i h
    push_neg at h
    rw [show ((2 ^ (-e).toNat : ℕ) : ℚ) = (2 : ℚ) ^ (-e).toNat by push_cast; ring,
      ← zpow_natCast, Int.toNat_of_nonneg (by omega), one_div, ← zpow_neg, neg_neg]

/-- Round a rational to the nearest integer, ties to even
(the rounding used at the mantissa of a binary64 operation). -/
def roundHalfEven (q : ℚ) : ℤ :=
  if q - (⌊q⌋ : ℚ) < 1 / 2 then ⌊q⌋
  else if 1 / 2 < q - (⌊q⌋ : ℚ) then ⌊q⌋ + 1
  else if ⌊q⌋ % 2 = 0 then ⌊q⌋ else ⌊q⌋ + 1

theorem roundHalfEven_le (q : ℚ) : (roundHalfEven q : ℚ) ≤ q + 1 / 2 := by
  unfold roundHalfEven
  have h1 : (⌊q⌋ : ℚ) ≤ q := Int.floor_le q
  split
  · linarith
  · rename_i h2
    push_neg at h2
    split
    · rename_i h3
      push_cast
      linarith
    · split <;> push_cast <;> linarith

theorem roundHalfEven_nonneg {q : ℚ} (h : 0 ≤ q) : 0 ≤ roundHalfEven q := by
  unfold roundHalfEven
  have h1 : 0 ≤ ⌊q⌋ := Int.floor_nonneg.mpr h
  split
  · exact h1
  · split
    · omega
    · split <;> omega

/-- `⌊log₂ q⌋` for a positive rational, computed from the binary logarithms of
numerator and denominator. -/
def floorLog2 (q : ℚ) : ℤ :=
  if q < pow2 ((Nat.log 2 q.num.toNat : ℤ) - (Nat.log 2 q.den : ℤ))
  then (Nat.log 2 q.num.toNat : ℤ) - (Nat.log 2 q.den : ℤ) - 1
  else (Nat.log 2 q.num.toNat : ℤ) - (Nat.log 2 q.den : ℤ)

theorem floorLog2_le {q : ℚ} (hq : 0 < q) : (2 : ℚ) ^ (floorLog2 q) ≤ q := by
  unfold floorLog2
  have hnum : 0 < q.num := Rat.num_pos.mpr hq
  have ha : q.num.toNat ≠ 0 := by omega
  set la : ℕ := Nat.log 2 q.num.toNat with hla
  set lb : ℕ := Nat.log 2 q.den with hlb
  -- 2 ^ la ≤ num and den < 2 ^ (lb + 1)
  have h1 : (2 : ℕ) ^ la ≤ q.num.toNat := Nat.pow_log_le_self 2 ha
  have h2 : q.den < 2 ^ (lb + 1) := Nat.lt_pow_succ_log_self (by norm_num) _
  -- hence 2 ^ (la - lb - 1) < q
  have hq_eq : q = (q.num : ℚ) / (q.den : ℚ) := (Rat.num_div_den q).symm
  have hdenQ : (0 : ℚ) < (q.den : ℚ) := by exact_mod_cast q.pos
  have hlow : (2 : ℚ) ^ ((la : ℤ) - (lb : ℤ) - 1) < q := by
    rw [hq_eq, lt_div_iff₀ hdenQ]
    have hcast : ((q.num.toNat : ℤ) : ℚ) = (q.num : ℚ) := by
      exact_mod_cast congrArg (fun z : ℤ => (z : ℚ)) (Int.toNat_of_nonneg (le_of_lt hnum))
    have hnum' : ((2 : ℚ)) ^ (la : ℤ) ≤ (q.num : ℚ) := by
      rw [zpow_natCast]
      calc ((2 : ℚ)) ^ la = ((2 ^ la : ℕ) : ℚ) := by push_cast; ring
        _ ≤ ((q.num.toNat : ℕ) : ℚ) := by exact_mod_cast h1
        _ = (q.num : ℚ) := by exact_mod_cast hcast
    have hden' : ((q.den : ℚ)) < (2 : ℚ) ^ ((lb : ℤ) + 1) := by
      rw [show ((lb : ℤ) + 1) = ((lb + 1 : ℕ) : ℤ) by push_cast; ring, zpow_natCast]
      calc ((q.den : ℚ)) < ((2 ^ (lb + 1) : ℕ) : ℚ) := by exact_mod_cast h2
        _ = (2 : ℚ) ^ (lb + 1) := by push_cast; ring
    calc (2 : ℚ) ^ ((la : ℤ) - (lb : ℤ) - 1) * (q.den : ℚ)
        < (2 : ℚ) ^ ((la : ℤ) - (lb : ℤ) - 1) * (2 : ℚ) ^ ((lb : ℤ) + 1) := by
          exact mul_lt_mul_of_pos_left hden' (zpow_pos (by norm_num) _)
      _ = (2 : ℚ) ^ (la : ℤ) := by rw [← zpow_add₀ (by norm_num : (2:ℚ) ≠ 0)]; ring_nf
      _ ≤ (q.num : ℚ) := hnum'
  -- now the case split of the definition
  split
  · rename_i hcase
    exact le_of_lt hlow
  · rename_i hcase
    rw [pow2_eq_zpow] at hcase
    exact not_lt.mp hcase

theorem floorLog2_lt {q : ℚ} (hq : 0 < q) : q < (2 : ℚ) ^ (floorLog2 q + 1) := by
  unfold floorLog2
  have hnum : 0 < q.num := Rat.num_pos.mpr hq
  have ha : q.num.toNat ≠ 0 := by omega
  have hb : q.den ≠ 0 := q.den_nz
  set la : ℕ := Nat.log 2 q.num.toNat with hla
  set lb : ℕ := Nat.log 2 q.den with hlb
  have h1 : q.num.toNat < 2 ^ (la + 1) := Nat.lt_pow_succ_log_self (by norm_num) _
  have h2 : (2 : ℕ) ^ lb ≤ q.den := Nat.pow_log_le_self 2 hb
  have hq_eq : q = (q.num : ℚ) / (q.den : ℚ) := (Rat.num_div_den q).symm
  have hdenQ : (0 : ℚ) < (q.den : ℚ) := by exact_mod_cast q.pos
  have hupp : q < (2 : ℚ) ^ ((la : ℤ) - (lb : ℤ) + 1) := by
    rw [hq_eq, div_lt_iff₀ hdenQ]
    have hcast : ((q.num.toNat : ℤ) : ℚ) = (q.num : ℚ) := by
      exact_mod_cast congrArg (fun z : ℤ => (z : ℚ)) (Int.toNat_of_nonneg (le_of_lt hnum))
    have hnum' : (q.num : ℚ) < ((2 : ℚ)) ^ ((la : ℤ) + 1) := by
      rw [show ((la : ℤ) + 1) = ((la + 1 : ℕ) : ℤ) by push_cast; ring, zpow_natCast]
      calc (q.num : ℚ) = ((q.num.toNat : ℕ) : ℚ) := by exact_mod_cast hcast.symm
        _ < ((2 ^ (la + 1) : ℕ) : ℚ) := by exact_mod_cast h1
        _ = (2 : ℚ) ^ (la + 1) := by push_cast; ring
    have hden' : (2 : ℚ) ^ (lb : ℤ) ≤ (q.den : ℚ) := by
      rw [zpow_natCast]
      calc ((2 : ℚ)) ^ lb = ((2 ^ lb : ℕ) : ℚ) := by push_cast; ring
        _ ≤ ((q.den : ℕ) : ℚ) := by exact_mod_cast h2
    calc (q.num : ℚ) < (2 : ℚ) ^ ((la : ℤ) + 1) := hnum'
      _ = (2 : ℚ) ^ ((la : ℤ) - (lb : ℤ) + 1) * (2 : ℚ) ^ (lb : ℤ) := by
          rw [← zpow_add₀ (by norm_num : (2:ℚ) ≠ 0)]; ring_nf
      _ ≤ (2 : ℚ) ^ ((la : ℤ) - (lb : ℤ) + 1) * (q.den : ℚ) := by
          exact mul_le_mul_of_nonneg_left hden' (le_of_lt (zpow_pos (by norm_num) _))
  split
  · rename_i hcase
    rw [pow2_eq_zpow] at hcase
    calc q < (2 : ℚ) ^ ((la : ℤ) - (lb : ℤ)) := hcase
      _ = (2 : ℚ) ^ ((la : ℤ) - (lb : ℤ) - 1 + 1) := by ring_nf
  · exact hupp

/-- `floorLog2` is pinned down by any two-sided power-of-two bracketing. -/
theorem floorLog2_eq {q : ℚ} {e : ℤ} (h1 : (2 : ℚ) ^ e ≤ q) (h2 : q < (2 : ℚ) ^ (e + 1)) :
    floorLog2 q = e := by
  have hq : 0 < q := lt_of_lt_of_le (zpow_pos (by norm_num) e) h1
  have hle := floorLog2_le hq
  have hlt := floorLog2_lt hq
  by_contra hne
  rcases lt_or_gt_of_ne hne with hltf | hgtf
  · have : floorLog2 q + 1 ≤ e := by omega
    have hstep : (2 : ℚ) ^ (floorLog2 q + 1) ≤ (2 : ℚ) ^ e :=
      zpow_le_zpow_right₀ (by norm_num) this
    linarith
  · have : e + 1 ≤ floorLog2 q := by omega
    have hstep : (2 : ℚ) ^ (e + 1) ≤ (2 : ℚ) ^ (floorLog2 q) :=
      zpow_le_zpow_right₀ (by norm_num) this
    linarith

/-- `roundHalfEven` evaluation: fractional part strictly below one half. -/
theorem roundHalfEven_eq_below {x : ℚ} {n : ℤ} (h1 : (n : ℚ) ≤ x) (h2 : x < (n : ℚ) + 1 / 2) :
    roundHalfEven x = n := by
  have hfl : ⌊x⌋ = n := Int.floor_eq_iff.mpr ⟨h1, by linarith⟩
  unfold roundHalfEven
  rw [hfl]
  split
  · rfl
  · rename_i hcon
    exfalso
    push_neg at hcon
    linarith

/-- IEEE-754 binary64 round-to-nearest-even of a rational (normal range;
nonpositive inputs round to `0`, which is the only nonpositive value appearing
in the modelled computation). -/
def rnd64 (q : ℚ) : ℚ :=
  if q ≤ 0 then 0
  else (roundHalfEven (q * pow2 (52 - floorLog2 q)) : ℚ) * pow2 (floorLog2 q - 52)

theorem rnd64_nonneg (q : ℚ) : 0 ≤ rnd64 q := by
  unfold rnd64
  split
  · exact le_refl 0
  · rename_i h
    push_neg at h
    have h1 : 0 ≤ q * pow2 (52 - floorLog2 q) := by
      apply mul_nonneg (le_of_lt h)
      rw [pow2_eq_zpow]
      positivity
    have h2 : (0 : ℚ) ≤ (roundHalfEven (q * pow2 (52 - floorLog2 q)) : ℚ) := by
      exact_mod_cast roundHalfEven_nonneg h1
    apply mul_nonneg h2
    rw [pow2_eq_zpow]
    positivity

/-- If `0 < q ≤ B` and `B` is an integer multiple of the rounding grid at
`q`'s scale, then the binary64 rounding of `q` stays at most `B`. -/
theorem rnd64_le {q B : ℚ} (h0 : 0 < q) (hqB : q ≤ B)
    (hint : ∃ k : ℤ, (k : ℚ) = B * (2 : ℚ) ^ ((52 : ℤ) - floorLog2 q)) :
    rnd64 q ≤ B := by
  obtain ⟨k, hk⟩ := hint
  unfold rnd64
  split
  · rename_i h; linarith
  · set e := floorLog2 q with he
    set s := q * pow2 (52 - e) with hs
    have hpow : (0 : ℚ) < pow2 (52 - e) := by rw [pow2_eq_zpow]; positivity
    have hsk : s ≤ (k : ℚ) := by
      rw [hk, hs, pow2_eq_zpow]
      exact mul_le_mul_of_nonneg_right hqB (by positivity)
    have hr : (roundHalfEven s : ℚ) ≤ (k : ℚ) := by
      have h1 : (roundHalfEven s : ℚ) ≤ s + 1 / 2 := roundHalfEven_le s
      have h2 : (roundHalfEven s : ℚ) ≤ (k : ℚ) + 1 / 2 := by linarith
      have h3 : roundHalfEven s ≤ k := by
        by_contra hcon
        push_neg at hcon
        have : (k : ℚ) + 1 ≤ (roundHalfEven s : ℚ) := by exact_mod_cast hcon
        linarith
      exact_mod_cast h3
    calc (roundHalfEven s : ℚ) * pow2 (e - 52)
        ≤ (k : ℚ) * pow2 (e - 52) := by
          apply mul_le_mul_of_nonneg_right hr
          rw [pow2_eq_zpow]; positivity
      _ = B := by
          rw [hk, pow2_eq_zpow, mul_assoc, ← zpow_add₀ (by norm_num : (2:ℚ) ≠ 0)]
          norm_num

/-- The binary64 value of the Python expression `c / t` on nonnegative
integers (`int / int` true division is correctly rounded in CPython). -/
def pyDiv (c t : ℕ) : ℚ := rnd64 ((c : ℚ) / (t : ℚ))

/-- The binary64 value of the Python expression `x * 100`. -/
def pyMul100 (x : ℚ) : ℚ := rnd64 (x * 100)

/-- Python `int(q)`: truncation toward zero. -/
def pyTrunc (q : ℚ) : ℤ := if q < 0 then -⌊-q⌋ else ⌊q⌋

/-- The exact value of the Python expression `int((c / t) * 100)` evaluated in
IEEE-754 binary64 arithmetic — the progress-percentage computation of
`BatchProcessor._update_document_status`. -/
def pyProgress (c t : ℕ) : ℤ := pyTrunc (pyMul100 (pyDiv c t))

/-- Python `round(x, 2)` modelled as decimal rounding half-to-even (risk
scores are modelled as exact rationals). -/
def round2 (q : ℚ) : ℚ := (roundHalfEven (q * 100) : ℚ) / 100

/-- Evaluation rule for `rnd64` from a power-of-two bracketing of the input
and the value of the mantissa rounding. -/
theorem rnd64_eq_mk {q : ℚ} {e m : ℤ} (h1 : (2 : ℚ) ^ e ≤ q) (h2 : q < (2 : ℚ) ^ (e + 1))
    (h3 : roundHalfEven (q * (2 : ℚ) ^ ((52 : ℤ) - e)) = m) :
    rnd64 q = (m : ℚ) * (2 : ℚ) ^ (e - (52 : ℤ)) := by
  have hq : 0 < q := lt_of_lt_of_le (zpow_pos (by norm_num) e) h1
  have he : floorLog2 q = e := floorLog2_eq h1 h2
  unfold rnd64
  split
  · rename_i hcon; linarith
  · rw [he, pow2_eq_zpow, pow2_eq_zpow, h3]

theorem rnd64_one : rnd64 1 = 1 := by
  have h3 : roundHalfEven ((1 : ℚ) * (2 : ℚ) ^ ((52 : ℤ) - 0)) = 2 ^ 52 := by
    apply roundHalfEven_eq_below <;> norm_num
  have := rnd64_eq_mk (q := 1) (e := 0) (by norm_num) (by norm_num) h3
  rw [this]
  norm_num

theorem rnd64_hundred : rnd64 100 = 100 := by
  have h3 : roundHalfEven ((100 : ℚ) * (2 : ℚ) ^ ((52 : ℤ) - 6)) = 100 * 2 ^ 46 := by
    apply roundHalfEven_eq_below <;> norm_num
  have := rnd64_eq_mk (q := 100) (e := 6) (by norm_num) (by norm_num) h3
  rw [this, show ((6 : ℤ) - 52) = -((46 : ℕ) : ℤ) from by norm_num, zpow_neg, zpow_natCast]
  push_cast
  norm_num

theorem rnd64_of_nonpos {q : ℚ} (h : q ≤ 0) : rnd64 q = 0 := by
  unfold rnd64
  split
  · rfl
  · rename_i hcon; exact absurd h hcon

theorem floorLog2_le_bound {q : ℚ} {n : ℤ} (hq : 0 < q) (h : q < (2 : ℚ) ^ (n + 1)) :
    floorLog2 q ≤ n := by
  by_contra hcon
  push_neg at hcon
  have h1 : n + 1 ≤ floorLog2 q := by omega
  have h2 : (2 : ℚ) ^ (n + 1) ≤ (2 : ℚ) ^ (floorLog2 q) :=
    zpow_le_zpow_right₀ (by norm_num) h1
  linarith [floorLog2_le hq]

theorem rnd64_le_one {q : ℚ} (h0 : 0 < q) (h1 : q ≤ 1) : rnd64 q ≤ 1 := by
  have he : floorLog2 q ≤ 0 :=
    floorLog2_le_bound h0 (by norm_num; linarith)
  apply rnd64_le h0 h1
  refine ⟨2 ^ ((52 : ℤ) - floorLog2 q).toNat, ?_⟩
  rw [one_mul]
  push_cast
  rw [← zpow_natCast (2 : ℚ) ((52 : ℤ) - floorLog2 q).toNat, Int.toNat_of_nonneg (by omega)]

theorem rnd64_le_hundred {q : ℚ} (h0 : 0 < q) (h1 : q ≤ 100) : rnd64 q ≤ 100 := by
  have he : floorLog2 q ≤ 6 := by
    apply floorLog2_le_bound h0
    norm_num
    linarith
  apply rnd64_le h0 h1
  refine ⟨25 * 2 ^ ((54 : ℤ) - floorLog2 q).toNat, ?_⟩
  push_cast
  rw [← zpow_natCast (2 : ℚ) ((54 : ℤ) - floorLog2 q).toNat, Int.toNat_of_nonneg (by omega)]
  rw [show (100 : ℚ) = 25 * (2 : ℚ) ^ (2 : ℤ) from by norm_num, mul_assoc,
    ← zpow_add₀ (by norm_num : (2 : ℚ) ≠ 0)]
  ring_nf

/-- The progress value stored by `_update_document_status` always lies
between `0` and `100` (the processed count never exceeds the total). -/
theorem pyProgress_bounds {c t : ℕ} (hc : 1 ≤ c) (hct : c ≤ t) :
    0 ≤ pyProgress c t ∧ pyProgress c t ≤ 100 := by
  have ht : (0 : ℚ) < (t : ℚ) := by
    have : 1 ≤ t := le_trans hc hct
    exact_mod_cast Nat.lt_of_lt_of_le Nat.zero_lt_one this
  have hq0 : 0 < (c : ℚ) / (t : ℚ) := by
    apply div_pos _ ht
    exact_mod_cast Nat.lt_of_lt_of_le Nat.zero_lt_one hc
  have hq1 : (c : ℚ) / (t : ℚ) ≤ 1 := by
    rw [div_le_one ht]
    exact_mod_cast hct
  have hx0 : 0 ≤ pyDiv c t := rnd64_nonneg _
  have hx1 : pyDiv c t ≤ 1 := rnd64_le_one hq0 hq1
  have hy0 : 0 ≤ pyMul100 (pyDiv c t) := rnd64_nonneg _
  have hy1 : pyMul100 (pyDiv c t) ≤ 100 := by
    unfold pyMul100
    rcases le_or_lt (pyDiv c t * 100) 0 with hle | hpos
    · rw [rnd64_of_nonpos hle]; norm_num
    · exact rnd64_le_hundred hpos (by linarith)
  constructor
  · unfold pyProgress pyTrunc
    split
    · rename_i hcon; linarith
    · exact Int.floor_nonneg.mpr hy0
  · unfold pyProgress pyTrunc
    split
    · rename_i hcon; linarith
    · calc ⌊pyMul100 (pyDiv c t)⌋ ≤ ⌊(100 : ℚ)⌋ := Int.floor_le_floor hy1
        _ = 100 := by norm_num

/-- Worked binary64 evaluation: `int((29 / 100) * 100)` is `28` in Python,
not `29`: `29 / 100` rounds to `5224175567749775 × 2⁻⁵⁴ < 0.29`, and scaling
by `100` rounds to `8162774324609023 × 2⁻⁴⁸ < 29`. -/
theorem pyProgress_29_100 : pyProgress 29 100 = 28 := by
  have hx : pyDiv 29 100 = (5224175567749775 : ℚ) * (2 : ℚ) ^ (-54 : ℤ) := by
    unfold pyDiv
    rw [show ((29 : ℕ) : ℚ) = 29 from by norm_num, show ((100 : ℕ) : ℚ) = 100 from by norm_num]
    have h3 : roundHalfEven ((29 : ℚ) / 100 * (2 : ℚ) ^ ((52 : ℤ) - (-2))) =
        5224175567749775 := by
      apply roundHalfEven_eq_below <;> norm_num
    have := rnd64_eq_mk (e := -2) (by norm_num) (by norm_num) h3
    rw [this]
    norm_num
  have hy : pyMul100 ((5224175567749775 : ℚ) * (2 : ℚ) ^ (-54 : ℤ)) =
      (8162774324609023 : ℚ) * (2 : ℚ) ^ (-48 : ℤ) := by
    unfold pyMul100
    have h3 : roundHalfEven ((5224175567749775 : ℚ) * (2 : ℚ) ^ (-54 : ℤ) * 100 *
        (2 : ℚ) ^ ((52 : ℤ) - 4)) = 8162774324609023 := by
      apply roundHalfEven_eq_below <;> norm_num
    have := rnd64_eq_mk (e := 4) (by norm_num) (by norm_num) h3
    rw [this]
    norm_num
  unfold pyProgress pyTrunc
  rw [hx, hy]
  split
  · rename_i hcon
    exfalso
    norm_num at hcon
  · apply Int.floor_eq_iff.mpr
    constructor <;> norm_num

/-- For a batch in which every document has been processed, the float
progress computation yields exactly `100`. -/
theorem pyProgress_self {t : ℕ} (ht : 1 ≤ t) : pyProgress t t = 100 := by
  have hne : ((t : ℚ)) ≠ 0 := by
    exact_mod_cast Nat.cast_ne_zero.mpr (by omega)
  unfold pyProgress pyDiv pyMul100 pyTrunc
  rw [div_self hne, rnd64_one, one_mul, rnd64_hundred]
  norm_num

/-! ## Data model of the persisted analysis records (the Document Store) -/

/-- A clause dictionary as persisted in a document's `clauses` list
(restricted to the two fields the core reads: `category` and `text`). -/
structure ClauseData where
  category : String
  text : String
  deriving DecidableEq

/-- The `risk_assessment` dictionary (the two fields the core reads). -/
structure RiskData where
  overall_risk_level : String
  overall_risk_score : ℚ
  deriving DecidableEq

/-- The `summary` dictionary (the three fields `_compare_summaries` reads). -/
structure SummaryData where
  document_type : String
  purpose : String
  parties : List String
  deriving DecidableEq

/-- One JSON record written by `DocumentProcessor._save_document_data`,
restricted to the fields the batch coordinator and version manager read.
`risk_assessment` and `summary` are `Option`s because the persisted JSON
value may be `null` (the dataclass fields default to `None`); the keys
themselves are always present in a persisted record. -/
structure DocData where
  filename : String
  upload_date : String
  raw_text : String
  clauses : List ClauseData
  risk_assessment : Option RiskData
  summary : Option SummaryData
  deriving DecidableEq

/-- The processed-documents folder: at most one record per identifier. -/
def DocStore : Type := String → Option DocData

/-- Errors propagated by the file-store reads: `FileNotFoundError` from
`load_document_data` / `_load_batch_metadata`, and `AttributeError` from
calling `.get` on a `None` (null) `risk_assessment`/`summary` value. -/
inductive LoadErr where
  | notFound (message : String)
  | attrError
  deriving DecidableEq

/-- `DocumentProcessor.load_document_data`: raises `FileNotFoundError` when
no record with the identifier is persisted. -/
def load_document_data (ds : DocStore) (document_id : String) : Except LoadErr DocData :=
  match ds document_id with
  | none => .error (.notFound ("Document " ++ document_id ++ " not found"))
  | some d => .ok d

/-! ## Batch coordinator (`BatchProcessor`) -/

/-- One per-document sub-status record inside a batch's persisted state. -/
structure DocStatus where
  filename : String
  status : String
  document_id : Option String
  error : Option String
  deriving DecidableEq

/-- The persisted JSON record of one batch. -/
structure BatchData where
  batch_id : String
  created_at : String
  status : String
  total_documents : ℕ
  completed_documents : ℕ
  failed_documents : ℕ
  progress_percentage : ℤ
  documents : List DocStatus
  deriving DecidableEq

/-- The batch folder: at most one record per batch identifier. -/
def BatchStore : Type := String → Option BatchData

/-- `BatchProcessor.create_batch`: builds the initial record (all
sub-statuses `pending`, counters and progress `0`).  The generated UUID and
creation timestamp are passed in as parameters. -/
def create_batch (batch_id created_at : String) (files : List String) : BatchData :=
  { batch_id := batch_id
    created_at := created_at
    status := "pending"
    total_documents := files.length
    completed_documents := 0
    failed_documents := 0
    progress_percentage := 0
    documents := files.map fun filename =>
      { filename := filename, status := "pending", document_id := none, error := none } }

/-- The result dictionary handed to `_update_document_status` for one
document: `_process_single_document` catches any exception and returns
either a `completed` dict (with the new document id and `error: None`) or a
`failed` dict (with `document_id: None` and the error message); an
exception escaping `future.result()` is likewise recorded as `failed`
(there the dict omits `document_id`, leaving the sub-status's initial
`None` in place — the same merged outcome). -/
inductive DocResult where
  | completed (document_id : String)
  | failed (error : String)
  deriving DecidableEq

/-- `BatchProcessor._update_document_status`: merge the result dict into the
indexed sub-status, bump the matching counter, recompute the progress
percentage with the binary64 expression `int((completed / total) * 100)`.
`none` models an uncaught exception: `IndexError` when the index is out of
range, `ZeroDivisionError` when `total_documents` is `0` (in the source the
list indexing happens before the division, hence the guard order). -/
def update_document_status (b : BatchData) (doc_index : ℕ) (result : DocResult) :
    Option BatchData :=
  match b.documents[doc_index]? with
  | none => none
  | some doc =>
    let doc' := match result with
      | .completed id => { doc with status := "completed", document_id := some id, error := none }
      | .failed e => { doc with status := "failed", document_id := none, error := some e }
    let completed' := match result with
      | .completed _ => b.completed_documents + 1
      | .failed _ => b.completed_documents
    let failed' := match result with
      | .completed _ => b.failed_documents
      | .failed _ => b.failed_documents + 1
    if b.total_documents = 0 then none
    else some { b with
      documents := b.documents.set doc_index doc'
      completed_documents := completed'
      failed_documents := failed'
      progress_percentage := pyProgress (completed' + failed') b.total_documents }

/-- `BatchProcessor._update_batch_status`. -/
def update_batch_status (b : BatchData) (status : String) : BatchData :=
  { b with status := status }

/-- `BatchProcessor.process_batch`, acting on the batch's persisted record.
The bounded worker pool plus the in-process lock serialise every write to
the record, so the net effect of the concurrent section is one
`_update_document_status` call per submitted document, applied sequentially
in completion order; `results` is that completion-order list of
(submission index, result dict) pairs.  The batch status is set to
`processing` first and unconditionally to `completed` after the pool
drains. -/
def process_batch (b : BatchData) (results : List (ℕ × DocResult)) : Option BatchData :=
  (results.foldlM (fun s ir => update_document_status s ir.1 ir.2)
      (update_batch_status b "processing")).map
    fun s => update_batch_status s "completed"

/-- `BatchProcessor._load_batch_metadata` (used by `get_batch_status`):
raises `FileNotFoundError` when no record with the identifier exists. -/
def load_batch_metadata (store : BatchStore) (batch_id : String) : Except LoadErr BatchData :=
  match store batch_id with
  | none => .error (.notFound ("Batch " ++ batch_id ++ " not found"))
  | some b => .ok b

/-- `BatchProcessor.get_batch_status` simply forwards to
`_load_batch_metadata`; it performs no write. -/
def get_batch_status (store : BatchStore) (batch_id : String) : Except LoadErr BatchData :=
  load_batch_metadata store batch_id

/-- The fixed risk-level histogram initialised in `get_batch_results`. -/
structure RiskDistribution where
  low : ℕ
  medium : ℕ
  high : ℕ
  critical : ℕ
  deriving DecidableEq

/-- `if risk_level in risk_distribution: risk_distribution[risk_level] += 1`. -/
def bumpRisk (d : RiskDistribution) (level : String) : RiskDistribution :=
  if level = "low" then { d with low := d.low + 1 }
  else if level = "medium" then { d with medium := d.medium + 1 }
  else if level = "high" then { d with high := d.high + 1 }
  else if level = "critical" then { d with critical := d.critical + 1 }
  else d

/-- Accumulator of the aggregation loop of `get_batch_results`. -/
structure BatchAgg where
  detailed : List DocData
  dist : RiskDistribution
  total_risk : ℚ
  total_clauses : ℕ

/-- One iteration of the aggregation loop of `get_batch_results`: Python
truthiness of `doc['document_id']` (`None` and `""` are falsy), then a
`try` block that loads the record (`FileNotFoundError` → skipped), appends
it to `detailed_results`, and then aggregates statistics (an `AttributeError`
from a null `risk_assessment` is caught after the append, so the record
stays in `detailed_results` but contributes no statistics). -/
def batch_agg_step (ds : DocStore) (acc : BatchAgg) (doc : DocStatus) : BatchAgg :=
  match doc.document_id with
  | none => acc
  | some id =>
    if id = "" then acc
    else match ds id with
      | none => acc
      | some data =>
        let acc' := { acc with detailed := acc.detailed ++ [data] }
        match data.risk_assessment with
        | none => acc'
        | some r =>
          { acc' with
            dist := bumpRisk acc'.dist r.overall_risk_level
            total_risk := acc'.total_risk + r.overall_risk_score
            total_clauses := acc'.total_clauses + data.clauses.length }

/-- The aggregated result dictionary returned by `get_batch_results`. -/
structure BatchResult where
  batch_id : String
  status : String
  created_at : String
  total_documents : ℕ
  successful : ℕ
  failed : ℕ
  progress_percentage : ℤ
  risk_distribution : RiskDistribution
  average_risk_score : ℚ
  total_clauses_detected : ℕ
  documents : List DocStatus
  detailed_results : List DocData

/-- `BatchProcessor.get_batch_results`, acting on the already-loaded batch
record.  `successful` / `failed` are copied from the persisted counters;
the average divides the summed scores by the number of `completed`
sub-statuses (`0` if there are none) and is rounded to 2 decimals. -/
def get_batch_results (b : BatchData) (ds : DocStore) : BatchResult :=
  let successful_docs := b.documents.filter fun d => d.status == "completed"
  let agg := successful_docs.foldl (batch_agg_step ds) ⟨[], ⟨0, 0, 0, 0⟩, 0, 0⟩
  let avg_risk_score : ℚ :=
    if successful_docs.isEmpty then 0 else agg.total_risk / (successful_docs.length : ℚ)
  { batch_id := b.batch_id
    status := b.status
    created_at := b.created_at
    total_documents := b.total_documents
    successful := b.completed_documents
    failed := b.failed_documents
    progress_percentage := b.progress_percentage
    risk_distribution := agg.dist
    average_risk_score := round2 avg_risk_score
    total_clauses_detected := agg.total_clauses
    documents := b.documents
    detailed_results := agg.detailed }

/-! ## Version manager (`VersionManager`) -/

/-- One entry of `major_changes`.  The source builds human-readable strings
from f-string templates; each template is modelled as a tagged value
carrying the same data (`addedClause cat` ↔ `"Added new {cat} clause"`,
`removedClause cat` ↔ `"Removed {cat} clause"`, `riskSwing dir pts` ↔
`"Overall risk {dir} by {pts:.1f} points"`). -/
inductive MajorChange where
  | addedClause (category : String)
  | removedClause (category : String)
  | riskSwing (direction : String) (points : ℚ)
  deriving DecidableEq

/-- The `changes_summary` dictionary built by `_calculate_changes`. -/
structure Changes where
  clauses_added : ℕ
  clauses_removed : ℕ
  clauses_modified : ℕ
  risk_delta : ℚ
  major_changes : List MajorChange
  deriving DecidableEq

/-- One version-metadata JSON record (file `{document_id}_v{version_number}.json`). -/
structure VersionRec where
  version_id : String
  document_id : String
  version_number : ℕ
  upload_date : String
  filename : String
  file_size : ℕ
  word_count : ℕ
  page_count : ℕ
  is_current : Bool
  changes_summary : Option Changes
  deriving DecidableEq

/-- The in-memory `Document` object handed to `create_version`
(restricted to the fields `create_version`/`_calculate_changes` read). -/
structure Doc where
  id : String
  upload_date : String
  filename : String
  file_size : ℕ
  word_count : ℕ
  page_count : ℕ
  clauses : List ClauseData
  risk_assessment : Option RiskData
  deriving DecidableEq

/-- `VersionManager.get_versions`: the files of the lineage (the glob
`{document_id}_v*.json`) in directory order, sorted by version number.
Directory order is unspecified, but the sort is stable and version numbers
are unique within a lineage (one file per `(document_id, version_number)`
key), so the result is order-independent;  `insertionSort` is a stable
sort, as is Python's `list.sort`. -/
def get_versions (store : List VersionRec) (document_id : String) : List VersionRec :=
  List.insertionSort (fun a b => a.version_number ≤ b.version_number)
    (store.filter fun v => v.document_id == document_id)

/-- `VersionManager.get_latest_version`: `versions[-1] if versions else None`. -/
def get_latest_version (store : List VersionRec) (document_id : String) : Option VersionRec :=
  (get_versions store document_id).getLast?

/-- `VersionManager._update_version_status`: scan all version files, flip
the `is_current` flag of the first record whose `version_id` matches, then
`break`. -/
def update_version_status : List VersionRec → String → Bool → List VersionRec
  | [], _, _ => []
  | v :: rest, version_id, is_current =>
    if v.version_id == version_id then { v with is_current := is_current } :: rest
    else v :: update_version_status rest version_id is_current

/-- `VersionManager._save_version_metadata`: (over)write the file named
`{document_id}_v{version_number}.json`. -/
def save_version_metadata (store : List VersionRec) (vd : VersionRec) : List VersionRec :=
  if store.any (fun v => v.document_id == vd.document_id &&
      v.version_number == vd.version_number) then
    store.map fun v =>
      if v.document_id == vd.document_id && v.version_number == vd.version_number then vd
      else v
  else store ++ [vd]

/-- The current document's overall risk score as read by
`_calculate_changes`:
`current_document.risk_assessment.overall_risk_score if current_document.risk_assessment else 0`. -/
def doc_risk_score (d : Doc) : ℚ :=
  match d.risk_assessment with
  | some r => r.overall_risk_score
  | none => 0

/-- `VersionManager._calculate_changes` with the load of the previous
document's persisted record made explicit.  Clause comparison is by
category only; the `modified` count scans every previous clause for a
current clause of the same category with different text.  The risk delta is
`round(curr - prev, 2)`; an `AttributeError` is raised when the previous
record's `risk_assessment` is null.  Python iterates the category sets in
unspecified set order when narrating major changes; the model fixes the
sorted order (no claim depends on it). -/
def calculate_changes (ds : DocStore) (previous_version_id : String) (current : Doc) :
    Except LoadErr Changes :=
  match load_document_data ds previous_version_id with
  | .error e => .error e
  | .ok prev_doc_data =>
    let prev_clauses := prev_doc_data.clauses
    let curr_clauses := current.clauses
    let prev_categories := (prev_clauses.map fun c => c.category).toFinset
    let curr_categories := (curr_clauses.map fun c => c.category).toFinset
    let clauses_added := (curr_categories \ prev_categories).card
    let clauses_removed := (prev_categories \ curr_categories).card
    let clauses_modified := prev_clauses.countP fun pc =>
      curr_clauses.any fun cc => pc.category == cc.category && pc.text != cc.text
    match prev_doc_data.risk_assessment with
    | none => .error .attrError
    | some prev_risk =>
      let risk_delta := round2 (doc_risk_score current - prev_risk.overall_risk_score)
      let major_changes :=
        (((curr_categories \ prev_categories).sort (· ≤ ·)).map MajorChange.addedClause)
        ++ (((prev_categories \ curr_categories).sort (· ≤ ·)).map MajorChange.removedClause)
        ++ (if 10 < |risk_delta| then
              [MajorChange.riskSwing (if 0 < risk_delta then "increased" else "decreased")
                |risk_delta|]
            else [])
      .ok { clauses_added := clauses_added
            clauses_removed := clauses_removed
            clauses_modified := clauses_modified
            risk_delta := risk_delta
            major_changes := major_changes }

/-- The version-number rule of `create_version`: `1` when no versions
exist, else `max(v['version_number'] for v in versions) + 1`. -/
def next_version_number (versions : List VersionRec) : ℕ :=
  if versions.isEmpty then 1
  else (versions.map fun v => v.version_number).foldl max 0 + 1

/-- `VersionManager.create_version`.  `parent_id` follows Python truthiness
(`None` and `""` are both falsy in `if parent_id:` and in
`parent_id or document.id`).  Returns the created record and the updated
version store; an exception escaping `_calculate_changes` propagates. -/
def create_version (ds : DocStore) (store : List VersionRec) (document : Doc)
    (parent_id : Option String) : Except LoadErr (VersionRec × List VersionRec) :=
  let pid := parent_id.getD ""
  let truthy : Bool := pid != ""
  let version_number : ℕ :=
    if truthy then next_version_number (get_versions store pid) else 1
  let version_data : VersionRec :=
    { version_id := document.id
      document_id := if truthy then pid else document.id
      version_number := version_number
      upload_date := document.upload_date
      filename := document.filename
      file_size := document.file_size
      word_count := document.word_count
      page_count := document.page_count
      is_current := true
      changes_summary := none }
  if truthy && decide (1 < version_number) then
    match get_latest_version store pid with
    | some previous_version =>
      match calculate_changes ds previous_version.version_id document with
      | .error e => .error e
      | .ok changes =>
        let version_data := { version_data with changes_summary := some changes }
        let store := update_version_status store previous_version.version_id false
        .ok (version_data, save_version_metadata store version_data)
    | none => .ok (version_data, save_version_metadata store version_data)
  else .ok (version_data, save_version_metadata store version_data)

/-- A lineage built by one `create_version` call without a parent followed
by one call per further revision, each with `parent_id` equal to the first
document's id (the scenario of the version-lineage invariant). -/
def build_lineage (ds : DocStore) (init : List VersionRec) :
    List Doc → Except LoadErr (List VersionRec)
  | [] => .ok init
  | d :: rest => do
    let s1 ← (create_version ds init d none).map fun p => p.2
    rest.foldlM (fun s d' => (create_version ds s d' (some d.id)).map fun p => p.2) s1

/-- One entry of the `text_diff` list: `{'type': 'added'|'removed', 'text': ...}`. -/
structure TextDiffEntry where
  type : String
  text : String
  deriving DecidableEq

/-- `VersionManager._generate_text_diff`, parameterised by the diff engine
(`difflib.unified_diff` of the standard library is an external collaborator:
the model quantifies over an arbitrary line-diff function, so every proved
property holds for the real engine as well).  Only the first 100 lines of
each side are fed to the engine; emitted lines starting with `+`/`-` become
`added`/`removed` entries (which also captures the `+++ `/`--- ` file
headers of a unified diff); the result is capped at 50 entries. -/
def generate_text_diff (udiff : List String → List String → List String)
    (doc1 doc2 : DocData) : List TextDiffEntry :=
  let text1_lines := (doc1.raw_text.splitOn "\n").take 100
  let text2_lines := (doc2.raw_text.splitOn "\n").take 100
  ((udiff text1_lines text2_lines).filterMap fun line =>
    if line.startsWith "+" then some { type := "added", text := line.drop 1 }
    else if line.startsWith "-" then some { type := "removed", text := line.drop 1 }
    else none).take 50

/-- One entry of the `modified` list of `_compare_clauses`. -/
structure ModifiedClause where
  category : String
  old : ClauseData
  new : ClauseData
  deriving DecidableEq

/-- The result of `_compare_clauses`. -/
structure ClauseChanges where
  added : List ClauseData
  removed : List ClauseData
  modified : List ModifiedClause
  deriving DecidableEq

/-- `VersionManager._compare_clauses`: clauses keyed by category (a dict
comprehension — the last clause of a category wins), compared by set
difference / intersection of the key sets.  Python iterates these sets in
unspecified order; the model fixes the sorted order (no claim depends on
it). -/
def compare_clauses (clauses1 clauses2 : List ClauseData) : ClauseChanges :=
  let keys1 := (clauses1.map fun c => c.category).toFinset
  let keys2 := (clauses2.map fun c => c.category).toFinset
  let dict1 := fun cat => (clauses1.filter fun c => c.category == cat).getLast?
  let dict2 := fun cat => (clauses2.filter fun c => c.category == cat).getLast?
  { added := ((keys2 \ keys1).sort (· ≤ ·)).filterMap dict2
    removed := ((keys1 \ keys2).sort (· ≤ ·)).filterMap dict1
    modified := ((keys1 ∩ keys2).sort (· ≤ ·)).filterMap fun cat =>
      match dict1 cat, dict2 cat with
      | some c1, some c2 =>
        if c1.text != c2.text then some { category := cat, old := c1, new := c2 } else none
      | _, _ => none }

/-- The result of `_compare_risks`. -/
structure RiskComparison where
  old_score : ℚ
  new_score : ℚ
  delta : ℚ
  old_level : String
  new_level : String
  deriving DecidableEq

/-- `VersionManager._compare_risks`: the arguments are
`doc.get('risk_assessment', {})`, which is `None` when the persisted value
is null — then the `.get` calls raise `AttributeError`. -/
def compare_risks (risk1 risk2 : Option RiskData) : Except LoadErr RiskComparison :=
  match risk1, risk2 with
  | some r1, some r2 =>
    .ok { old_score := r1.overall_risk_score
          new_score := r2.overall_risk_score
          delta := r2.overall_risk_score - r1.overall_risk_score
          old_level := r1.overall_risk_level
          new_level := r2.overall_risk_level }
  | _, _ => .error .attrError

/-- The result of `_compare_summaries`. -/
structure SummaryComparison where
  parties_changed : Bool
  purpose_changed : Bool
  type_changed : Bool
  deriving DecidableEq

/-- `VersionManager._compare_summaries` (same null-summary caveat as
`_compare_risks`). -/
def compare_summaries (summary1 summary2 : Option SummaryData) :
    Except LoadErr SummaryComparison :=
  match summary1, summary2 with
  | some s1, some s2 =>
    .ok { parties_changed := s1.parties != s2.parties
          purpose_changed := s1.purpose != s2.purpose
          type_changed := s1.document_type != s2.document_type }
  | _, _ => .error .attrError

/-- The short per-version header of a comparison. -/
structure VersionInfo where
  id : String
  filename : String
  upload_date : String
  deriving DecidableEq

/-- The full result of `compare_versions`. -/
structure Comparison where
  version1 : VersionInfo
  version2 : VersionInfo
  text_diff : List TextDiffEntry
  clause_changes : ClauseChanges
  risk_comparison : RiskComparison
  summary_changes : SummaryComparison
  deriving DecidableEq

/-- `VersionManager.compare_versions`: load both analysis records
(`FileNotFoundError` when either identifier is unknown), then assemble the
comparison dictionary; a pure read — no store is written. -/
def compare_versions (udiff : List String → List String → List String) (ds : DocStore)
    (version1_id version2_id : String) : Except LoadErr Comparison := do
  let doc1 ← load_document_data ds version1_id
  let doc2 ← load_document_data ds version2_id
  let risk_comparison ← compare_risks doc1.risk_assessment doc2.risk_assessment
  let summary_changes ← compare_summaries doc1.summary doc2.summary
  .ok { version1 := { id := version1_id, filename := doc1.filename,
                      upload_date := doc1.upload_date }
        version2 := { id := version2_id, filename := doc2.filename,
                      upload_date := doc2.upload_date }
        text_diff := generate_text_diff udiff doc1 doc2
        clause_changes := compare_clauses doc1.clauses doc2.clauses
        risk_comparison := risk_comparison
        summary_changes := summary_changes }

/-! ## Claims about the batch coordinator and version manager -/

/-- C10: a batch created from an empty file list is created successfully
(`total_documents = 0`, `progress_percentage = 0`) and `process_batch`
terminates normally with status `completed` while all counters and the
progress stay `0`; no per-document update runs, so the division by
`total_documents` (the only division-by-zero risk) is never executed —
captured by the result being `some _` rather than `none`. -/
theorem claim_C10 (batch_id created_at : String) :
    (create_batch batch_id created_at []).total_documents = 0 ∧
    (create_batch batch_id created_at []).progress_percentage = 0 ∧
    process_batch (create_batch batch_id created_at []) [] =
      some { batch_id := batch_id, created_at := created_at, status := "completed",
             total_documents := 0, completed_documents := 0, failed_documents := 0,
             progress_percentage := 0, documents := [] } :=
  ⟨rfl, rfl, rfl⟩

theorem compare_risks_no_notFound (r1 r2 : Option RiskData) (m : String) :
    compare_risks r1 r2 ≠ .error (.notFound m) := by
  cases r1 <;> cases r2 <;> simp [compare_risks]

theorem compare_summaries_no_notFound (s1 s2 : Option SummaryData) (m : String) :
    compare_summaries s1 s2 ≠ .error (.notFound m) := by
  cases s1 <;> cases s2 <;> simp [compare_summaries]

/-- C9: `get_batch_status` fails with the not-found error exactly when no
batch record with the identifier is persisted, and `compare_versions` fails
with the not-found error exactly when at least one of the two identifiers
has no persisted analysis record (a null `risk_assessment`/`summary` can
make it fail, but with `AttributeError`, never with the not-found error).
Both operations are pure reads of the stores — in this embedding they
return no store, so no stored state can be modified. -/
theorem claim_C9 (bs : BatchStore) (ds : DocStore)
    (udiff : List String → List String → List String) (batch_id id1 id2 : String) :
    ((∃ m, get_batch_status bs batch_id = .error (.notFound m)) ↔ bs batch_id = none) ∧
    ((∃ m, compare_versions udiff ds id1 id2 = .error (.notFound m)) ↔
      (ds id1 = none ∨ ds id2 = none)) := by
  constructor
  · unfold get_batch_status load_batch_metadata
    cases h : bs batch_id <;> simp
  · cases h1 : ds id1 with
    | none => simp [compare_versions, load_document_data, h1, bind, Except.bind]
    | some d1 =>
      cases h2 : ds id2 with
      | none => simp [compare_versions, load_document_data, h1, h2, bind, Except.bind]
      | some d2 =>
        simp only [compare_versions, load_document_data, h1, h2, bind, Except.bind]
        cases hr : compare_risks d1.risk_assessment d2.risk_assessment with
        | error e =>
          simp only [reduceCtorEq, or_self, iff_false, not_exists]
          intro m hcon
          have : e = .notFound m := by
            injection hcon with h
          exact compare_risks_no_notFound _ _ m (this ▸ hr)
        | ok rc =>
          cases hs : compare_summaries d1.summary d2.summary with
          | error e =>
            simp only [reduceCtorEq, or_self, iff_false, not_exists]
            intro m hcon
            have : e = .notFound m := by
              injection hcon with h
            exact compare_summaries_no_notFound _ _ m (this ▸ hs)
          | ok sc => simp

theorem round2_zero : round2 0 = 0 := by
  unfold round2
  rw [show ((0 : ℚ) * 100) = 0 from by ring,
    roundHalfEven_eq_below (x := 0) (n := 0) (by norm_num) (by norm_num)]
  norm_num

theorem generate_text_diff_length (udiff : List String → List String → List String)
    (d1 d2 : DocData) : (generate_text_diff udiff d1 d2).length ≤ 50 := by
  unfold generate_text_diff
  exact List.length_take_le _ _

theorem generate_text_diff_types (udiff : List String → List String → List String)
    (d1 d2 : DocData) :
    ∀ e ∈ generate_text_diff udiff d1 d2, e.type = "added" ∨ e.type = "removed" := by
  intro e he
  unfold generate_text_diff at he
  have he' := List.mem_of_mem_take he
  rcases List.mem_filterMap.mp he' with ⟨line, _, hline⟩
  by_cases hp : line.startsWith "+"
  · rw [if_pos hp, Option.some.injEq] at hline
    left
    rw [← hline]
  · by_cases hm : line.startsWith "-"
    · rw [if_neg hp, if_pos hm, Option.some.injEq] at hline
      right
      rw [← hline]
    · rw [if_neg hp, if_neg hm] at hline
      exact absurd hline (by simp)

theorem generate_text_diff_first100 (udiff : List String → List String → List String)
    (d1 d2 d1' d2' : DocData)
    (h1 : (d1.raw_text.splitOn "\n").take 100 = (d1'.raw_text.splitOn "\n").take 100)
    (h2 : (d2.raw_text.splitOn "\n").take 100 = (d2'.raw_text.splitOn "\n").take 100) :
    generate_text_diff udiff d1 d2 = generate_text_diff udiff d1' d2' := by
  unfold generate_text_diff
  rw [h1, h2]

/-- C7: for any two stored analysis records, the `text_diff` component of a
successful `compare_versions` is the wrapper around the diff engine applied
to the first 100 lines of each side only (any two documents agreeing on
those truncations produce the same diff), it has at most 50 entries, and
every entry is typed `added` or `removed`.  The property holds for every
diff engine `udiff`, in particular for `difflib.unified_diff`. -/
theorem claim_C7 (udiff : List String → List String → List String) (ds : DocStore)
    (id1 id2 : String) (d1 d2 : DocData) (cmp : Comparison)
    (h1 : ds id1 = some d1) (h2 : ds id2 = some d2)
    (hok : compare_versions udiff ds id1 id2 = .ok cmp) :
    cmp.text_diff = generate_text_diff udiff d1 d2 ∧
    cmp.text_diff.length ≤ 50 ∧
    (∀ e ∈ cmp.text_diff, e.type = "added" ∨ e.type = "removed") ∧
    (∀ d1' d2' : DocData,
      (d1.raw_text.splitOn "\n").take 100 = (d1'.raw_text.splitOn "\n").take 100 →
      (d2.raw_text.splitOn "\n").take 100 = (d2'.raw_text.splitOn "\n").take 100 →
      generate_text_diff udiff d1 d2 = generate_text_diff udiff d1' d2') := by
  have htd : cmp.text_diff = generate_text_diff udiff d1 d2 := by
    unfold compare_versions at hok
    simp only [load_document_data, h1, h2, bind, Except.bind] at hok
    cases hr : compare_risks d1.risk_assessment d2.risk_assessment with
    | error e => rw [hr] at hok; exact absurd hok (by simp)
    | ok rc =>
      rw [hr] at hok
      cases hs : compare_summaries d1.summary d2.summary with
      | error e => rw [hs] at hok; exact absurd hok (by simp)
      | ok sc =>
        rw [hs] at hok
        injection hok with hok'
        rw [← hok']
  refine ⟨htd, ?_, ?_, ?_⟩
  · rw [htd]; exact generate_text_diff_length udiff d1 d2
  · rw [htd]; exact generate_text_diff_types udiff d1 d2
  · exact generate_text_diff_first100 udiff d1 d2

/-- Truthy load of one sub-status's document record, as performed by the
aggregation loop of `get_batch_results`: `None`/`""` identifiers and
missing records load nothing. -/
def batch_load_of (ds : DocStore) (doc : DocStatus) : Option DocData :=
  match doc.document_id with
  | none => none
  | some id => if id = "" then none else ds id

theorem agg_detailed (ds : DocStore) (l : List DocStatus) : ∀ acc : BatchAgg,
    (l.foldl (batch_agg_step ds) acc).detailed = acc.detailed ++ l.filterMap (batch_load_of ds) := by
  induction l with
  | nil => intro acc; simp
  | cons d t ih =>
    intro acc
    rw [List.foldl_cons, ih (batch_agg_step ds acc d), List.filterMap_cons]
    unfold batch_agg_step batch_load_of
    cases hd : d.document_id with
    | none => simp
    | some id =>
      by_cases hid : id = ""
      · simp [hid]
      · cases hds : ds id with
        | none => simp [hid, hds]
        | some data =>
          cases hra : data.risk_assessment <;> simp [hid, hds, hra]

/-- C8: `get_batch_results` reports `average_risk_score = 0` when no
sub-status completed; its `successful`/`failed` counters are copied from
the persisted batch counters (hence unaffected by load failures); and
`detailed_results` is exactly the loadable records of the completed
sub-statuses, so a completed sub-status whose record cannot be loaded
contributes nothing to `detailed_results`. -/
theorem claim_C8 (b : BatchData) (ds : DocStore) :
    ((∀ d ∈ b.documents, d.status ≠ "completed") →
      (get_batch_results b ds).average_risk_score = 0) ∧
    (get_batch_results b ds).successful = b.completed_documents ∧
    (get_batch_results b ds).failed = b.failed_documents ∧
    (get_batch_results b ds).detailed_results =
      (b.documents.filter fun d => d.status == "completed").filterMap (batch_load_of ds) ∧
    (∀ d : DocStatus, (∀ id, d.document_id = some id → ds id = none) →
      batch_load_of ds d = none) := by
  refine ⟨?_, rfl, rfl, ?_, ?_⟩
  · intro hnone
    have hfil : b.documents.filter (fun d => d.status == "completed") = [] := by
      apply List.filter_eq_nil_iff.mpr
      intro d hd
      simp only [beq_iff_eq]
      exact hnone d hd
    unfold get_batch_results
    simp only [hfil, List.isEmpty_nil, if_true]
    exact round2_zero
  · unfold get_batch_results
    simp only [agg_detailed]
    simp
  · intro d hd
    unfold batch_load_of
    cases hdoc : d.document_id with
    | none => rfl
    | some id =>
      by_cases hid : id = ""
      · simp [hid]
      · simp [hid, hd id hdoc]

/-- Extract the `Changes` record produced by a successful
`_calculate_changes` call whose previous record and risk are known. -/
theorem calculate_changes_ok {ds : DocStore} {pid : String} {current : Doc}
    {prevData : DocData} {prevRisk : RiskData} {ch : Changes}
    (hload : ds pid = some prevData)
    (hrisk : prevData.risk_assessment = some prevRisk)
    (hok : calculate_changes ds pid current = .ok ch) :
    ch = { clauses_added := (((current.clauses.map fun c => c.category).toFinset) \
             ((prevData.clauses.map fun c => c.category).toFinset)).card
           clauses_removed := (((prevData.clauses.map fun c => c.category).toFinset) \
             ((current.clauses.map fun c => c.category).toFinset)).card
           clauses_modified := prevData.clauses.countP fun pc =>
             current.clauses.any fun cc => pc.category == cc.category && pc.text != cc.text
           risk_delta := round2 (doc_risk_score current - prevRisk.overall_risk_score)
           major_changes :=
             (((((current.clauses.map fun c => c.category).toFinset) \
                 ((prevData.clauses.map fun c => c.category).toFinset)).sort
               (· ≤ ·)).map MajorChange.addedClause)
             ++ (((((prevData.clauses.map fun c => c.category).toFinset) \
                 ((current.clauses.map fun c => c.category).toFinset)).sort
               (· ≤ ·)).map MajorChange.removedClause)
             ++ (if 10 < |round2 (doc_risk_score current - prevRisk.overall_risk_score)| then
                   [MajorChange.riskSwing
                     (if 0 < round2 (doc_risk_score current - prevRisk.overall_risk_score)
                      then "increased" else "decreased")
                     |round2 (doc_risk_score current - prevRisk.overall_risk_score)|]
                 else []) } := by
  unfold calculate_changes load_document_data at hok
  rw [hload] at hok
  simp only [hrisk] at hok
  injection hok with hok'
  exact hok'.symm

/-- C4: when the clause-category sets of two consecutive versions are
disjoint, the computed delta reports `clauses_added` = number of distinct
categories of the new version, `clauses_removed` = number of distinct
categories of the old version, and `clauses_modified = 0`. -/
theorem claim_C4 (ds : DocStore) (previous_version_id : String) (current : Doc)
    (prevData : DocData) (prevRisk : RiskData) (ch : Changes)
    (hload : ds previous_version_id = some prevData)
    (hrisk : prevData.risk_assessment = some prevRisk)
    (hok : calculate_changes ds previous_version_id current = .ok ch)
    (hdisj : Disjoint ((prevData.clauses.map fun c => c.category).toFinset)
      ((current.clauses.map fun c => c.category).toFinset)) :
    ch.clauses_added = ((current.clauses.map fun c => c.category).toFinset).card ∧
    ch.clauses_removed = ((prevData.clauses.map fun c => c.category).toFinset).card ∧
    ch.clauses_modified = 0 := by
  rw [calculate_changes_ok hload hrisk hok]
  refine ⟨?_, ?_, ?_⟩
  · simp only []
    rw [Finset.sdiff_eq_self_iff_disjoint.mpr hdisj.symm]
  · simp only []
    rw [Finset.sdiff_eq_self_iff_disjoint.mpr hdisj]
  · simp only []
    rw [List.countP_eq_zero]
    intro pc hpc
    simp only [List.any_eq_true, Bool.and_eq_true, beq_iff_eq, bne_iff_ne, not_exists]
    rintro cc ⟨hcc, hcat, _⟩
    have hmem1 : pc.category ∈ (prevData.clauses.map fun c => c.category).toFinset := by
      rw [List.mem_toFinset]
      exact List.mem_map.mpr ⟨pc, hpc, rfl⟩
    have hmem2 : pc.category ∈ (current.clauses.map fun c => c.category).toFinset := by
      rw [List.mem_toFinset]
      exact List.mem_map.mpr ⟨cc, hcc, hcat.symm⟩
    exact Finset.disjoint_left.mp hdisj hmem1 hmem2

/-- C5: the risk delta of a computed `ChangeDelta` is the rounded score
difference, a risk-swing narration entry exists in `major_changes` exactly
when the absolute delta strictly exceeds `10` (so a delta of exactly `10`
yields none), and its direction reads `increased` for a positive delta and
`decreased` for a negative one. -/
theorem claim_C5 (ds : DocStore) (previous_version_id : String) (current : Doc)
    (prevData : DocData) (prevRisk : RiskData) (ch : Changes)
    (hload : ds previous_version_id = some prevData)
    (hrisk : prevData.risk_assessment = some prevRisk)
    (hok : calculate_changes ds previous_version_id current = .ok ch) :
    ch.risk_delta = round2 (doc_risk_score current - prevRisk.overall_risk_score) ∧
    ((∃ dir pts, MajorChange.riskSwing dir pts ∈ ch.major_changes) ↔ 10 < |ch.risk_delta|) ∧
    (∀ dir pts, MajorChange.riskSwing dir pts ∈ ch.major_changes →
      (0 < ch.risk_delta → dir = "increased") ∧ (ch.risk_delta < 0 → dir = "decreased")) := by
  rw [calculate_changes_ok hload hrisk hok]
  simp only []
  set delta := round2 (doc_risk_score current - prevRisk.overall_risk_score) with hdelta
  refine ⟨by trivial, ?_, ?_⟩
  · constructor
    · rintro ⟨dir, pts, hmem⟩
      rcases List.mem_append.mp hmem with hmem' | hswing
      · rcases List.mem_append.mp hmem' with hadd | hrem
        · rcases List.mem_map.mp hadd with ⟨c, _, hc⟩
          exact absurd hc (by simp)
        · rcases List.mem_map.mp hrem with ⟨c, _, hc⟩
          exact absurd hc (by simp)
      · by_cases hcond : 10 < |delta|
        · exact hcond
        · rw [if_neg hcond] at hswing
          exact absurd hswing (List.not_mem_nil _)
    · intro hcond
      refine ⟨if 0 < delta then "increased" else "decreased", |delta|, ?_⟩
      apply List.mem_append.mpr
      right
      rw [if_pos hcond]
      exact List.mem_singleton.mpr rfl
  · intro dir pts hmem
    rcases List.mem_append.mp hmem with hmem' | hswing
    · rcases List.mem_append.mp hmem' with hadd | hrem
      · rcases List.mem_map.mp hadd with ⟨c, _, hc⟩
        exact absurd hc (by simp)
      · rcases List.mem_map.mp hrem with ⟨c, _, hc⟩
        exact absurd hc (by simp)
    · by_cases hcond : 10 < |delta|
      · rw [if_pos hcond] at hswing
        have := List.mem_singleton.mp hswing
        have hdir : dir = (if 0 < delta then "increased" else "decreased") := by
          injection this with hd hp
        constructor
        · intro hpos
          rw [hdir, if_pos hpos]
        · intro hneg
          rw [hdir, if_neg (by linarith)]
      · rw [if_neg hcond] at hswing
        exact absurd hswing (List.not_mem_nil _)

/-! ### Concrete stores and documents used by the witnesses -/

def docEx : DocData :=
  { filename := "f.txt", upload_date := "u", raw_text := "hello",
    clauses := [],
    risk_assessment := some { overall_risk_level := "low", overall_risk_score := 0 },
    summary := some { document_type := "NDA", purpose := "p", parties := [] } }

def dsEx : DocStore := fun _ => some docEx

def udiffEx : List String → List String → List String := fun _ _ => []

def cmpEx : Comparison :=
  { version1 := { id := "a", filename := "f.txt", upload_date := "u" }
    version2 := { id := "b", filename := "f.txt", upload_date := "u" }
    text_diff := generate_text_diff udiffEx docEx docEx
    clause_changes := compare_clauses docEx.clauses docEx.clauses
    risk_comparison := { old_score := 0, new_score := 0, delta := 0 - 0,
                         old_level := "low", new_level := "low" }
    summary_changes := { parties_changed := false, purpose_changed := false,
                         type_changed := false } }

theorem compare_versions_ex : compare_versions udiffEx dsEx "a" "b" = .ok cmpEx := rfl

theorem claim_C7_witness :
    cmpEx.text_diff = generate_text_diff udiffEx docEx docEx ∧ cmpEx.text_diff.length ≤ 50 :=
  ⟨(claim_C7 udiffEx dsEx "a" "b" docEx docEx cmpEx rfl rfl compare_versions_ex).1,
   (claim_C7 udiffEx dsEx "a" "b" docEx docEx cmpEx rfl rfl compare_versions_ex).2.1⟩

theorem claim_C8_witness :
    (get_batch_results (create_batch "b1" "t1" ["x.pdf"]) (fun _ => none)).average_risk_score
      = 0 :=
  (claim_C8 (create_batch "b1" "t1" ["x.pdf"]) (fun _ => none)).1 (by
    intro d hd
    simp only [create_batch, List.map_cons, List.map_nil, List.mem_singleton] at hd
    rw [hd]
    simp)

def prevDocEx : DocData :=
  { filename := "g.txt", upload_date := "u0", raw_text := "old", clauses := [],
    risk_assessment := some { overall_risk_level := "low", overall_risk_score := 0 },
    summary := none }

def dsPrevEx : DocStore := fun _ => some prevDocEx

def currDocEx : Doc :=
  { id := "d2", upload_date := "u1", filename := "g2.txt", file_size := 1,
    word_count := 2, page_count := 3, clauses := [], risk_assessment := none }

def chEx : Changes :=
  { clauses_added := 0, clauses_removed := 0, clauses_modified := 0, risk_delta := 0,
    major_changes := [] }

/-- `_calculate_changes` against the store `dsPrevEx` for any clauseless,
riskless current document yields the all-zero delta. -/
theorem calc_changes_trivial (pid : String) (cur : Doc)
    (hc : cur.clauses = []) (hr : cur.risk_assessment = none) :
    calculate_changes dsPrevEx pid cur = .ok chEx := by
  have hra : prevDocEx.risk_assessment =
      some { overall_risk_level := "low", overall_risk_score := 0 } := rfl
  have hpc : prevDocEx.clauses = [] := rfl
  unfold calculate_changes load_document_data dsPrevEx
  simp only [hra, hpc, hc, List.map_nil, List.toFinset_nil, Finset.sdiff_empty,
    Finset.empty_sdiff, Finset.card_empty, List.countP_nil, Finset.sort_empty,
    List.nil_append]
  norm_num [chEx, doc_risk_score, hr, round2_zero]

theorem calculate_changes_ex : calculate_changes dsPrevEx "prev" currDocEx = .ok chEx :=
  calc_changes_trivial "prev" currDocEx rfl rfl

theorem claim_C4_witness :
    chEx.clauses_added = ((currDocEx.clauses.map fun c => c.category).toFinset).card ∧
    chEx.clauses_removed = ((prevDocEx.clauses.map fun c => c.category).toFinset).card ∧
    chEx.clauses_modified = 0 :=
  claim_C4 dsPrevEx "prev" currDocEx prevDocEx
    { overall_risk_level := "low", overall_risk_score := 0 } chEx rfl rfl
    calculate_changes_ex (by simp [prevDocEx, currDocEx])

theorem claim_C5_witness :
    chEx.risk_delta = round2 (doc_risk_score currDocEx - (0 : ℚ)) ∧
    ((∃ dir pts, MajorChange.riskSwing dir pts ∈ chEx.major_changes) ↔ 10 < |chEx.risk_delta|) :=
  have h := claim_C5 dsPrevEx "prev" currDocEx prevDocEx
    { overall_risk_level := "low", overall_risk_score := 0 } chEx rfl rfl calculate_changes_ex
  ⟨h.1, h.2.1⟩

/-- C3 (amended): after a per-document status update the persisted progress
percentage is exactly the binary64 evaluation of
`int((completed / total) * 100)` — `pyProgress` — an integer between 0 and
100 inclusive.  It is *not* always the exact-arithmetic
`floor((completed + failed) / total * 100)`: see the counterexample. -/
theorem claim_C3 (b : BatchData) (doc_index : ℕ) (result : DocResult) (b' : BatchData)
    (hproc : b.completed_documents + b.failed_documents < b.total_documents)
    (hupd : update_document_status b doc_index result = some b') :
    b'.progress_percentage =
      pyProgress (b'.completed_documents + b'.failed_documents) b'.total_documents ∧
    0 ≤ b'.progress_percentage ∧ b'.progress_percentage ≤ 100 := by
  unfold update_document_status at hupd
  cases hidx : b.documents[doc_index]? with
  | none => rw [hidx] at hupd; exact absurd hupd (by simp)
  | some doc =>
    rw [hidx] at hupd
    have htot : ¬ b.total_documents = 0 := by omega
    have hbounds := pyProgress_bounds
      (c := b.completed_documents + b.failed_documents + 1) (t := b.total_documents)
      (by omega) (by omega)
    cases result with
    | completed id =>
      simp only [htot, if_false] at hupd
      injection hupd with hupd'
      subst hupd'
      rw [show b.completed_documents + b.failed_documents + 1 =
        b.completed_documents + 1 + b.failed_documents from by omega] at hbounds
      exact ⟨rfl, hbounds.1, hbounds.2⟩
    | failed e =>
      simp only [htot, if_false] at hupd
      injection hupd with hupd'
      subst hupd'
      rw [show b.completed_documents + b.failed_documents + 1 =
        b.completed_documents + (b.failed_documents + 1) from by omega] at hbounds
      exact ⟨rfl, hbounds.1, hbounds.2⟩

def pendingDoc : DocStatus :=
  { filename := "x", status := "pending", document_id := none, error := none }

def bW : BatchData :=
  { batch_id := "w", created_at := "t", status := "processing", total_documents := 1,
    completed_documents := 0, failed_documents := 0, progress_percentage := 0,
    documents := [pendingDoc] }

def b1W : BatchData :=
  { batch_id := "w", created_at := "t", status := "processing", total_documents := 1,
    completed_documents := 1, failed_documents := 0,
    progress_percentage := pyProgress (0 + 1 + 0) 1,
    documents := [{ filename := "x", status := "completed", document_id := some "d",
                    error := none }] }

theorem claim_C3_witness :
    b1W.progress_percentage =
      pyProgress (b1W.completed_documents + b1W.failed_documents) b1W.total_documents ∧
    0 ≤ b1W.progress_percentage ∧ b1W.progress_percentage ≤ 100 :=
  claim_C3 bW 0 (.completed "d") b1W (by norm_num [bW]) (by
    unfold update_document_status bW b1W
    norm_num [pendingDoc])

theorem get_versions_nil {store : List VersionRec} {document_id : String}
    (h : get_versions store document_id = []) :
    store.filter (fun v => v.document_id == document_id) = [] := by
  unfold get_versions at h
  have hperm := List.perm_insertionSort (fun a b => a.version_number ≤ b.version_number)
    (store.filter fun v => v.document_id == document_id)
  rw [h] at hperm
  exact (hperm.symm).eq_nil

def docD : Doc :=
  { id := "d1", upload_date := "u", filename := "f", file_size := 0, word_count := 0,
    page_count := 0, clauses := [], risk_assessment := none }

def vdD : VersionRec :=
  { version_id := "d1", document_id := "d1", version_number := 1, upload_date := "u",
    filename := "f", file_size := 0, word_count := 0, page_count := 0, is_current := true,
    changes_summary := none }

/-- C6 counterexample: Python truthiness — `create_version` with the
present-but-empty parent id `""` behaves as if no parent were given:
the created record's `document_id` is the document's own id, not the
supplied parent id `""`. -/
theorem claim_C6_counterexample :
    create_version (fun _ => none) [] docD (some "") = .ok (vdD, [vdD]) ∧
    vdD.document_id ≠ "" := by
  refine ⟨rfl, by decide⟩

/-- C6 (amended): for a *non-empty* supplied parent id with no prior
version records, the created record has `version_number = 1`, its
`document_id` is the supplied parent id, no `ChangeDelta` is computed
(`changes_summary = none`), and the store is only appended to — no other
record (in particular no `is_current` flag) is modified. -/
theorem claim_C6 (ds : DocStore) (store : List VersionRec) (document : Doc) (p : String)
    (hp : p ≠ "")
    (hnone : get_versions store p = []) :
    create_version ds store document (some p) = .ok
      ({ version_id := document.id, document_id := p, version_number := 1,
         upload_date := document.upload_date, filename := document.filename,
         file_size := document.file_size, word_count := document.word_count,
         page_count := document.page_count, is_current := true, changes_summary := none },
       store ++ [{ version_id := document.id, document_id := p, version_number := 1,
                   upload_date := document.upload_date, filename := document.filename,
                   file_size := document.file_size, word_count := document.word_count,
                   page_count := document.page_count, is_current := true,
                   changes_summary := none }]) := by
  have hp' : (p != "") = true := by
    rw [bne_iff_ne]
    exact hp
  have hfil := get_versions_nil hnone
  have hany : store.any (fun v => v.document_id == p && v.version_number == 1) = false := by
    rw [List.any_eq_false]
    intro v hv hcon
    have h1 : (v.document_id == p) = true := (Bool.and_eq_true _ _ |>.mp hcon).1
    have h2 := List.filter_eq_nil_iff.mp hfil v hv
    exact h2 h1
  unfold create_version save_version_metadata next_version_number
  simp only [Option.getD_some, hp', if_true, hnone, List.isEmpty_nil, hany,
    Bool.false_eq_true, if_false, Bool.true_and]
  norm_num

theorem claim_C6_witness :
    create_version (fun _ => none) [] docD (some "p0") = .ok
      ({ version_id := "d1", document_id := "p0", version_number := 1, upload_date := "u",
         filename := "f", file_size := 0, word_count := 0, page_count := 0,
         is_current := true, changes_summary := none },
       [{ version_id := "d1", document_id := "p0", version_number := 1,
          upload_date := "u", filename := "f", file_size := 0, word_count := 0,
          page_count := 0, is_current := true, changes_summary := none }]) :=
  claim_C6 (fun _ => none) [] docD "p0" (by decide) rfl

/-- What a processed result dict leaves in the document's sub-status. -/
def DocMatches (r : DocResult) (d : DocStatus) : Prop :=
  match r with
  | .completed id => d.status = "completed" ∧ d.document_id = some id ∧ d.error = none
  | .failed e => d.status = "failed" ∧ d.document_id = none ∧ d.error = some e

theorem update_completed_eq {b : BatchData} {j : ℕ} {id : String} {doc : DocStatus}
    (hidx : b.documents[j]? = some doc) (htot : ¬ b.total_documents = 0) :
    update_document_status b j (.completed id) = some
      { b with
        documents := b.documents.set j
          { doc with status := "completed", document_id := some id, error := none }
        completed_documents := b.completed_documents + 1
        progress_percentage :=
          pyProgress (b.completed_documents + 1 + b.failed_documents) b.total_documents } := by
  unfold update_document_status
  rw [hidx]
  simp only [htot, if_false]

theorem update_failed_eq {b : BatchData} {j : ℕ} {e : String} {doc : DocStatus}
    (hidx : b.documents[j]? = some doc) (htot : ¬ b.total_documents = 0) :
    update_document_status b j (.failed e) = some
      { b with
        documents := b.documents.set j
          { doc with status := "failed", document_id := none, error := some e }
        failed_documents := b.failed_documents + 1
        progress_percentage :=
          pyProgress (b.completed_documents + (b.failed_documents + 1))
            b.total_documents } := by
  unfold update_document_status
  rw [hidx]
  simp only [htot, if_false]

/-- Invariant of the per-document update loop of `process_batch`: starting
from any batch record with `N ≥ 1` documents and matching total, folding a
list of in-range results never raises, increments the counters once per
result, recomputes the progress, and records each uniquely-indexed result
in its sub-status. -/
theorem process_fold {N : ℕ} (hN : 0 < N) :
    ∀ (results : List (ℕ × DocResult)) (b : BatchData),
    b.total_documents = N → b.documents.length = N →
    (∀ p ∈ results, p.1 < N) →
    ∃ b', results.foldlM (fun s ir => update_document_status s ir.1 ir.2) b = some b' ∧
      b'.total_documents = N ∧ b'.documents.length = N ∧ b'.status = b.status ∧
      b'.completed_documents + b'.failed_documents =
        b.completed_documents + b.failed_documents + results.length ∧
      (results = [] → b' = b) ∧
      (results ≠ [] → b'.progress_percentage =
        pyProgress (b'.completed_documents + b'.failed_documents) N) ∧
      (∀ i, (∀ p ∈ results, p.1 ≠ i) → b'.documents[i]? = b.documents[i]?) ∧
      (∀ i r, (i, r) ∈ results → (results.map Prod.fst).count i = 1 →
        ∃ d, b'.documents[i]? = some d ∧ DocMatches r d) := by
  intro results
  induction results with
  | nil =>
    intro b htot hlen _
    refine ⟨b, rfl, htot, hlen, rfl, by simp, fun _ => rfl, fun h => absurd rfl h,
      fun i _ => rfl, fun i r hmem _ => absurd hmem (List.not_mem_nil _)⟩
  | cons p rest ih =>
    intro b htot hlen hidxs
    obtain ⟨j, s⟩ := p
    have hj : j < N := hidxs (j, s) (List.mem_cons_self _ _)
    have hjlen : j < b.documents.length := by omega
    have hdoc : ∃ doc, b.documents[j]? = some doc := by
      rw [List.getElem?_eq_getElem hjlen]
      exact ⟨_, rfl⟩
    obtain ⟨doc, hdoc⟩ := hdoc
    have htot0 : ¬ b.total_documents = 0 := by omega
    -- the single update
    have hstep : ∃ b1, update_document_status b j s = some b1 ∧
        b1.total_documents = N ∧ b1.documents.length = N ∧ b1.status = b.status ∧
        b1.completed_documents + b1.failed_documents =
          b.completed_documents + b.failed_documents + 1 ∧
        b1.progress_percentage =
          pyProgress (b1.completed_documents + b1.failed_documents) N ∧
        (∀ i, j ≠ i → b1.documents[i]? = b.documents[i]?) ∧
        (∃ d, b1.documents[j]? = some d ∧ DocMatches s d) := by
      cases s with
      | completed id =>
        refine ⟨_, update_completed_eq hdoc htot0, htot, ?_, rfl, by simp only []; omega,
          ?_, ?_, ?_⟩
        · simp only [List.length_set]; exact hlen
        · simp only []
          rw [htot]
        · intro i hne
          simp only [List.getElem?_set_ne hne]
        · exact ⟨_, List.getElem?_set_eq_of_lt _ hjlen, rfl, rfl, rfl⟩
      | failed e =>
        refine ⟨_, update_failed_eq hdoc htot0, htot, ?_, rfl, by simp only []; omega,
          ?_, ?_, ?_⟩
        · simp only [List.length_set]; exact hlen
        · simp only []
          rw [htot]
        · intro i hne
          simp only [List.getElem?_set_ne hne]
        · exact ⟨_, List.getElem?_set_eq_of_lt _ hjlen, rfl, rfl, rfl⟩
    obtain ⟨b1, hb1, hb1tot, hb1len, hb1st, hb1cf, hb1prog, hb1other, d1, hd1, hd1m⟩ := hstep
    have hidxs' : ∀ p ∈ rest, p.1 < N := fun p hp => hidxs p (List.mem_cons_of_mem _ hp)
    obtain ⟨b', hfold, h2, h3, h4, h5, h6, h7, h8, h9⟩ := ih b1 hb1tot hb1len hidxs'
    refine ⟨b', ?_, h2, h3, by rw [h4, hb1st], by simp only [List.length_cons]; omega,
      ?_, ?_, ?_, ?_⟩
    · rw [List.foldlM_cons, hb1]
      exact hfold
    · intro hcon
      exact absurd hcon (List.cons_ne_nil _ _)
    · intro _
      by_cases hrest : rest = []
      · subst hrest
        rw [h6 rfl]
        exact hb1prog
      · exact h7 hrest
    · intro i hnot
      have hji : j ≠ i := hnot (j, s) (List.mem_cons_self _ _)
      rw [h8 i (fun p hp => hnot p (List.mem_cons_of_mem _ hp))]
      exact hb1other i hji
    · intro i r hmem hcount
      simp only [List.map_cons, List.count_cons] at hcount
      rcases List.mem_cons.mp hmem with heq | hrest'
      · have hi : i = j := congrArg Prod.fst heq
        have hr : r = s := congrArg Prod.snd heq
        subst hi
        subst hr
        have hc0 : (rest.map Prod.fst).count i = 0 := by
          simp only [beq_self_eq_true, if_true] at hcount
          omega
        have hnotin : ∀ p ∈ rest, p.1 ≠ i := by
          intro p hp hcon
          have : p.1 ∈ rest.map Prod.fst := List.mem_map.mpr ⟨p, hp, rfl⟩
          rw [hcon] at this
          rw [List.count_eq_zero] at hc0
          exact hc0 this
        rw [h8 i hnotin]
        exact ⟨d1, hd1, hd1m⟩
      · have hij : ¬ (j == i) = true := by
          intro hcon
          have hmemf : i ∈ rest.map Prod.fst := List.mem_map.mpr ⟨(i, r), hrest', rfl⟩
          have h1 : 1 ≤ (rest.map Prod.fst).count i := List.one_le_count_iff.mpr hmemf
          rw [if_pos hcon] at hcount
          omega
        have hcount' : (rest.map Prod.fst).count i = 1 := by
          rw [if_neg hij] at hcount
          omega
        exact h9 i r hrest' hcount'

/-- C3 counterexample: during a `process_batch` run on a batch created
from 100 files, the persisted record reached after 29 per-document status
updates has `completed + failed = 29` and `total = 100`, but its stored
`progress_percentage` is `28`, while the claimed exact-arithmetic value
`floor((completed + failed) / total * 100) = 29 * 100 / 100` is `29`:
Python evaluates `int((29 / 100) * 100)` in binary64, where
`29 / 100` rounds slightly below `0.29` and the product rounds to
`28.999999999999996`. -/
theorem claim_C3_counterexample :
    ∃ b', ((List.range 29).map fun i => (i, DocResult.completed "d")).foldlM
        (fun s ir => update_document_status s ir.1 ir.2)
        (update_batch_status (create_batch "b" "t" (List.replicate 100 "f.pdf")) "processing")
        = some b' ∧
      b'.completed_documents + b'.failed_documents = 29 ∧
      b'.total_documents = 100 ∧
      b'.progress_percentage = 28 ∧
      ((29 : ℤ) * 100 / 100) = 29 := by
  have hidx : ∀ p ∈ (List.range 29).map fun i => (i, DocResult.completed "d"), p.1 < 100 := by
    intro p hp
    rcases List.mem_map.mp hp with ⟨i, hi, rfl⟩
    have := List.mem_range.mp hi
    omega
  obtain ⟨b', hfold, htot, _, _, hcnt, _, hprog, _, _⟩ :=
    process_fold (N := 100) (by omega)
      ((List.range 29).map fun i => (i, DocResult.completed "d"))
      (update_batch_status (create_batch "b" "t" (List.replicate 100 "f.pdf")) "processing")
      (by simp [create_batch, update_batch_status])
      (by simp [create_batch, update_batch_status])
      hidx
  have hcf : b'.completed_documents + b'.failed_documents = 29 := by
    rw [hcnt]
    simp [create_batch, update_batch_status]
  refine ⟨b', hfold, hcf, htot, ?_, by norm_num⟩
  rw [hprog (by simp), hcf]
  exact pyProgress_29_100

/-- C1 counterexample: for a batch created from an *empty* file list,
`process_batch` still terminates with status `completed` and
`completed + failed = 0 = N`, but `progress_percentage` stays `0`, not
`100` — the claim's `progress_percentage == 100` fails for `N = 0`. -/
theorem claim_C1_counterexample :
    process_batch (create_batch "b0" "t0" []) [] =
      some { batch_id := "b0", created_at := "t0", status := "completed",
             total_documents := 0, completed_documents := 0, failed_documents := 0,
             progress_percentage := 0, documents := [] } ∧
    (0 : ℤ) ≠ 100 :=
  ⟨rfl, by decide⟩

/-- C1 (amended): for every batch created from `N ≥ 1` files and any
completion order of per-document results (one result per submitted index),
`process_batch` never aborts: it returns a persisted record with status
`completed`, `completed_documents + failed_documents = N`,
`progress_percentage = 100`, and every per-document result — in particular
every failure, with its captured error message — recorded in that
document's sub-status. -/
theorem claim_C1 (batch_id created_at : String) (files : List String)
    (results : List (ℕ × DocResult))
    (hne : files ≠ [])
    (hperm : (results.map Prod.fst).Perm (List.range files.length)) :
    ∃ b', process_batch (create_batch batch_id created_at files) results = some b' ∧
      b'.status = "completed" ∧
      b'.completed_documents + b'.failed_documents = files.length ∧
      b'.progress_percentage = 100 ∧
      (∀ i r, (i, r) ∈ results → ∃ d, b'.documents[i]? = some d ∧ DocMatches r d) := by
  have hN : 0 < files.length := List.length_pos.mpr hne
  have hlen0 : (create_batch batch_id created_at files).documents.length = files.length := by
    unfold create_batch
    simp
  have hidxs : ∀ p ∈ results, p.1 < files.length := by
    intro p hp
    have h1 : p.1 ∈ results.map Prod.fst := List.mem_map.mpr ⟨p, hp, rfl⟩
    exact List.mem_range.mp (hperm.mem_iff.mp h1)
  have hrlen : results.length = files.length := by
    have := hperm.length_eq
    simpa using this
  obtain ⟨b', hfold, h2, h3, h4, h5, h6, h7, h8, h9⟩ :=
    process_fold hN results (update_batch_status (create_batch batch_id created_at files)
      "processing") rfl hlen0 hidxs
  have hrne : results ≠ [] := by
    intro hcon
    rw [hcon] at hrlen
    simp at hrlen
    omega
  have hcf : b'.completed_documents + b'.failed_documents = files.length := by
    rw [h5]
    simp only [update_batch_status, create_batch]
    omega
  refine ⟨update_batch_status b' "completed", ?_, rfl, hcf, ?_, ?_⟩
  · unfold process_batch
    rw [hfold]
    rfl
  · show b'.progress_percentage = 100
    rw [h7 hrne, hcf]
    exact pyProgress_self hN
  · intro i r hmem
    have hcnt : (results.map Prod.fst).count i = 1 := by
      rw [hperm.count_eq i]
      exact List.count_eq_one_of_mem (List.nodup_range _) (List.mem_range.mpr (hidxs (i, r) hmem))
    exact h9 i r hmem hcnt

theorem claim_C1_witness :
    ∃ b', process_batch (create_batch "w1" "t" ["a.pdf"]) [(0, .failed "boom")] = some b' ∧
      b'.status = "completed" ∧
      b'.completed_documents + b'.failed_documents = 1 ∧
      b'.progress_percentage = 100 ∧
      (∀ i r, (i, r) ∈ [((0 : ℕ), DocResult.failed "boom")] →
        ∃ d, b'.documents[i]? = some d ∧ DocMatches r d) :=
  claim_C1 "w1" "t" ["a.pdf"] [(0, .failed "boom")] (by decide) (List.Perm.refl _)

/-! ### Version-lineage invariant (claim C2) -/

theorem foldl_max_range' : ∀ (n s acc : ℕ), 1 ≤ n →
    (List.range' s n).foldl max acc = max acc (s + n - 1) := by
  intro n
  induction n with
  | zero => intro s acc h; omega
  | succ m ih =>
    intro s acc _
    rw [List.range'_succ, List.foldl_cons]
    by_cases hm : m = 0
    · subst hm
      simp
    · rw [ih (s + 1) (max acc s) (by omega)]
      omega

/-- The `max(...) + 1` versioning rule evaluated on a lineage whose version
numbers are `1..k`. -/
theorem next_version_number_lineage {recs : List VersionRec} {k : ℕ}
    (hnum : recs.map (fun v => v.version_number) = List.range' 1 k) (hk : 1 ≤ k) :
    next_version_number recs = k + 1 := by
  unfold next_version_number
  have hne : recs.isEmpty = false := by
    cases recs with
    | nil =>
      exfalso
      have := congrArg List.length hnum
      simp only [List.length_map, List.length_nil, List.length_range'] at this
      omega
    | cons a t => rfl
  simp only [hne, Bool.false_eq_true, if_false]
  rw [hnum]
  obtain ⟨m, rfl⟩ : ∃ m, k = m + 1 := ⟨k - 1, by omega⟩
  rw [List.range'_succ, List.foldl_cons]
  by_cases hm : m = 0
  · subst hm
    simp
  · rw [foldl_max_range' m 2 (max 0 1) (by omega)]
    rw [show max 0 1 = 1 from rfl, Nat.max_eq_right (by omega : (1 : ℕ) ≤ 2 + m - 1)]
    have h2 : 2 + m - 1 + 1 = m + 1 + 1 := by omega
    exact h2

theorem mem_map_replicate {recs : List VersionRec} {k : ℕ} {root : String}
    (h : recs.map (fun v => v.document_id) = List.replicate k root) :
    ∀ v ∈ recs, v.document_id = root := by
  intro v hv
  have h1 : v.document_id ∈ recs.map (fun v => v.document_id) :=
    List.mem_map.mpr ⟨v, hv, rfl⟩
  rw [h] at h1
  exact List.eq_of_mem_replicate h1

theorem filter_lineage {amb recs : List VersionRec} {root : String}
    (hamb : ∀ v ∈ amb, v.document_id ≠ root)
    (hrecs : ∀ v ∈ recs, v.document_id = root) :
    (amb ++ recs).filter (fun v => v.document_id == root) = recs := by
  rw [List.filter_append]
  rw [List.filter_eq_nil_iff.mpr (by
    intro v hv hcon
    exact hamb v hv (beq_iff_eq.mp hcon))]
  rw [List.filter_eq_self.mpr (by
    intro v hv
    exact beq_iff_eq.mpr (hrecs v hv))]
  rfl

theorem get_versions_lineage {amb recs : List VersionRec} {root : String} {k : ℕ}
    (hamb : ∀ v ∈ amb, v.document_id ≠ root)
    (hdoc : recs.map (fun v => v.document_id) = List.replicate k root)
    (hnum : recs.map (fun v => v.version_number) = List.range' 1 k) :
    get_versions (amb ++ recs) root = recs := by
  unfold get_versions
  rw [filter_lineage hamb (mem_map_replicate hdoc)]
  apply List.Sorted.insertionSort_eq
  have hpair : (recs.map fun v => v.version_number).Pairwise (· ≤ ·) := by
    rw [hnum]
    exact (List.pairwise_lt_range' ..).imp le_of_lt
  exact List.pairwise_map.mp hpair

theorem update_version_status_unique :
    ∀ (l1 : List VersionRec) (v : VersionRec) (l2 : List VersionRec) (b : Bool),
    (∀ u ∈ l1, u.version_id ≠ v.version_id) →
    update_version_status (l1 ++ v :: l2) v.version_id b =
      l1 ++ { v with is_current := b } :: l2 := by
  intro l1
  induction l1 with
  | nil =>
    intro v l2 b _
    unfold update_version_status
    simp
  | cons u t ih =>
    intro v l2 b h
    have hu : ¬ (u.version_id == v.version_id) = true := by
      intro hcon
      exact h u (List.mem_cons_self _ _) (beq_iff_eq.mp hcon)
    rw [List.cons_append]
    unfold update_version_status
    rw [if_neg hu]
    rw [ih v l2 b (fun w hw => h w (List.mem_cons_of_mem _ hw))]
    rfl

theorem save_append {st : List VersionRec} {vd : VersionRec}
    (h : ∀ v ∈ st, ¬(v.document_id = vd.document_id ∧ v.version_number = vd.version_number)) :
    save_version_metadata st vd = st ++ [vd] := by
  unfold save_version_metadata
  have hany : st.any (fun v => v.document_id == vd.document_id &&
      v.version_number == vd.version_number) = false := by
    rw [List.any_eq_false]
    intro v hv hcon
    rcases Bool.and_eq_true _ _ |>.mp hcon with ⟨h1, h2⟩
    exact h v hv ⟨beq_iff_eq.mp h1, beq_iff_eq.mp h2⟩
  rw [hany]
  simp

theorem filter_current : ∀ (recs : List VersionRec) (s n : ℕ), 1 ≤ n →
    recs.map (fun v => v.is_current) = List.replicate (n - 1) false ++ [true] →
    recs.map (fun v => v.version_number) = List.range' s n →
    ((recs.filter fun v => v.is_current).map fun v => v.version_number) = [s + n - 1] := by
  intro recs
  induction recs with
  | nil =>
    intro s n hn h2 _
    exfalso
    have := congrArg List.length h2
    simp only [List.length_map, List.length_nil, List.length_append,
      List.length_replicate, List.length_cons] at this
    omega
  | cons v t ih =>
    intro s n hn h2 h3
    rw [List.map_cons] at h2 h3
    by_cases h1 : n = 1
    · subst h1
      simp only [Nat.sub_self, List.replicate_zero, List.nil_append] at h2
      have hv : v.is_current = true := (List.cons.injEq .. |>.mp h2).1
      have ht : t.map (fun v => v.is_current) = [] := (List.cons.injEq .. |>.mp h2).2
      have ht' : t = [] := by
        cases t with
        | nil => rfl
        | cons a b => simp at ht
      subst ht'
      simp only [List.map_nil] at h3
      have hvn : v.version_number = s := by
        have := (List.cons.injEq .. |>.mp h3).1
        simpa using this
      rw [List.filter_cons, hv]
      simp [hvn]
    · have hn2 : 2 ≤ n := by omega
      have hrep : List.replicate (n - 1) false ++ [true] =
          false :: (List.replicate (n - 2) false ++ [true]) := by
        rw [show n - 1 = (n - 2) + 1 from by omega, List.replicate_succ, List.cons_append]
      rw [hrep] at h2
      have hv : v.is_current = false := (List.cons.injEq .. |>.mp h2).1
      have ht : t.map (fun v => v.is_current) =
          List.replicate (n - 2) false ++ [true] := (List.cons.injEq .. |>.mp h2).2
      have h3' : v.version_number :: t.map (fun v => v.version_number) =
          s :: List.range' (s + 1) (n - 1) := by
        rw [show n = (n - 1) + 1 from by omega, List.range'_succ] at h3
        exact h3
      have ht3 : t.map (fun v => v.version_number) = List.range' (s + 1) (n - 1) :=
        (List.cons.injEq .. |>.mp h3').2
      rw [List.filter_cons, hv]
      simp only [Bool.false_eq_true, if_false]
      rw [ih (s + 1) (n - 1) (by omega)
        (by rw [show n - 1 - 1 = n - 2 from by omega]; exact ht) ht3]
      have h4 : s + 1 + (n - 1) - 1 = s + n - 1 := by omega
      rw [h4]

/-- The record `create_version` builds (before/after attaching a delta). -/
def new_version_data (d : Doc) (docId : String) (n : ℕ) (ch : Option Changes) : VersionRec :=
  { version_id := d.id, document_id := docId, version_number := n,
    upload_date := d.upload_date, filename := d.filename, file_size := d.file_size,
    word_count := d.word_count, page_count := d.page_count, is_current := true,
    changes_summary := ch }

/-- Shape of the store while a lineage rooted at `root` with document ids
`ids` is being built on top of an unrelated ambient store `amb`: the
lineage's `k` records sit behind `amb` in creation order, numbered `1..k`,
with only the newest one current. -/
def lineageCore (root : String) (ids : List String) (amb : List VersionRec) (k : ℕ)
    (st : List VersionRec) : Prop :=
  ∃ recs : List VersionRec,
    st = amb ++ recs ∧
    recs.map (fun v => v.document_id) = List.replicate k root ∧
    recs.map (fun v => v.version_id) = ids.take k ∧
    recs.map (fun v => v.version_number) = List.range' 1 k ∧
    recs.map (fun v => v.is_current) = List.replicate (k - 1) false ++ [true]

theorem create_version_root_eq (ds : DocStore) (st : List VersionRec) (d : Doc)
    (hany : ∀ v ∈ st, ¬(v.document_id = d.id ∧ v.version_number = 1)) :
    create_version ds st d none = .ok
      (new_version_data d d.id 1 none, st ++ [new_version_data d d.id 1 none]) := by
  unfold create_version
  simp only [Option.getD_none]
  rw [show (("" : String) != "") = false from rfl]
  simp only [Bool.false_eq_true, if_false, Bool.false_and]
  rw [save_append (by intro v hv; exact hany v hv)]
  rfl

theorem create_version_step_eq (ds : DocStore) (amb recs : List VersionRec) (root : String)
    (d : Doc) (k : ℕ) (rlast : VersionRec)
    (hroot : root ≠ "")
    (hamb_doc : ∀ v ∈ amb, v.document_id ≠ root)
    (hdoc : recs.map (fun v => v.document_id) = List.replicate k root)
    (hnum : recs.map (fun v => v.version_number) = List.range' 1 k)
    (hk : 1 ≤ k)
    (hlast : recs.getLast? = some rlast) :
    create_version ds (amb ++ recs) d (some root) =
      (calculate_changes ds rlast.version_id d).map fun changes =>
        (new_version_data d root (k + 1) (some changes),
         save_version_metadata
           (update_version_status (amb ++ recs) rlast.version_id false)
           (new_version_data d root (k + 1) (some changes))) := by
  have htr : (root != "") = true := by
    rw [bne_iff_ne]
    exact hroot
  have hgv : get_versions (amb ++ recs) root = recs :=
    get_versions_lineage hamb_doc hdoc hnum
  have hlatest : get_latest_version (amb ++ recs) root = some rlast := by
    unfold get_latest_version
    rw [hgv]
    exact hlast
  have hnext : next_version_number (get_versions (amb ++ recs) root) = k + 1 := by
    rw [hgv]
    exact next_version_number_lineage hnum hk
  unfold create_version
  simp only [Option.getD_some, htr, if_true, hnext, hlatest]
  have hcond : (true && decide (1 < k + 1)) = true := by
    simp
    omega
  rw [hcond]
  simp only [if_true]
  cases hcc : calculate_changes ds rlast.version_id d with
  | error e => rfl
  | ok changes => rfl

/-- Mapping a field over the lineage after flipping the last record's
`is_current`: any field the flip preserves maps as before. -/
theorem map_flip_append {α : Type} {f : VersionRec → α} {recs : List VersionRec}
    {rlast x : VersionRec} (hsplit : recs.dropLast ++ [rlast] = recs)
    (hx : f x = f rlast) (y : VersionRec) :
    (recs.dropLast ++ [x] ++ [y]).map f = recs.map f ++ [f y] := by
  calc (recs.dropLast ++ [x] ++ [y]).map f
      = (recs.dropLast ++ [x]).map f ++ [f y] := by simp
    _ = (recs.dropLast ++ [rlast]).map f ++ [f y] := by simp [hx]
    _ = recs.map f ++ [f y] := by rw [hsplit]

theorem lineage_step (ds : DocStore) (amb : List VersionRec) (root : String)
    (ids : List String) (k : ℕ) (d : Doc) (st st' : List VersionRec) (vd : VersionRec)
    (hroot : root ≠ "")
    (hk : 1 ≤ k)
    (hid : ids[k]? = some d.id)
    (hnodup : ids.Nodup)
    (hamb_doc : ∀ v ∈ amb, v.document_id ≠ root)
    (hamb_ver : ∀ v ∈ amb, v.version_id ∉ ids)
    (hinv : lineageCore root ids amb k st)
    (hcall : create_version ds st d (some root) = .ok (vd, st')) :
    lineageCore root ids amb (k + 1) st' := by
  obtain ⟨recs, hst, hdocm, hverm, hnumm, hcurm⟩ := hinv
  subst hst
  have hlenrecs : recs.length = k := by
    have := congrArg List.length hnumm
    simpa using this
  have hne : recs ≠ [] := by
    intro h
    rw [h] at hlenrecs
    simp at hlenrecs
    omega
  cases hlast : recs.getLast? with
  | none => exact absurd (List.getLast?_eq_none_iff.mp hlast) hne
  | some rlast =>
  have heval := create_version_step_eq ds amb recs root d k rlast hroot hamb_doc hdocm
    hnumm hk hlast
  rw [heval] at hcall
  cases hcc : calculate_changes ds rlast.version_id d with
  | error e =>
    rw [hcc] at hcall
    exact absurd hcall (by simp [Except.map])
  | ok changes =>
    rw [hcc] at hcall
    simp only [Except.map] at hcall
    injection hcall with hpair
    have hst' : st' = save_version_metadata
        (update_version_status (amb ++ recs) rlast.version_id false)
        (new_version_data d root (k + 1) (some changes)) := (congrArg Prod.snd hpair).symm
    -- split the lineage records at the last one
    have hgl : recs.getLast hne = rlast := by
      have h1 := List.getLast?_eq_getLast recs hne
      rw [hlast] at h1
      injection h1 with h1'
      exact h1'.symm
    have hsplit : recs.dropLast ++ [rlast] = recs := by
      rw [← hgl]
      exact List.dropLast_append_getLast hne
    have hrlast_mem : rlast ∈ recs := by
      rw [← hgl]
      exact List.getLast_mem hne
    have hrl_ver_mem : rlast.version_id ∈ ids := by
      have h1 : rlast.version_id ∈ recs.map (fun v => v.version_id) :=
        List.mem_map.mpr ⟨rlast, hrlast_mem, rfl⟩
      rw [hverm] at h1
      exact List.take_subset _ _ h1
    have hnd : (recs.map fun v => v.version_id).Nodup := by
      rw [hverm]
      exact hnodup.sublist (List.take_sublist _ _)
    have hdrop_ne : ∀ u ∈ recs.dropLast, u.version_id ≠ rlast.version_id := by
      intro u hu
      have h1 : (recs.dropLast.map (fun v => v.version_id) ++
          [rlast.version_id]).Nodup := by
        have he : recs.dropLast.map (fun v => v.version_id) ++ [rlast.version_id] =
            recs.map (fun v => v.version_id) := by
          conv_rhs => rw [← hsplit]
          simp
        rw [he]
        exact hnd
      have h2 := List.disjoint_of_nodup_append h1
      intro hcon
      exact h2 (List.mem_map.mpr ⟨u, hu, rfl⟩) (by rw [hcon]; exact List.mem_singleton.mpr rfl)
    -- the flip rewrites the old current record in place
    have hup : update_version_status (amb ++ recs) rlast.version_id false =
        (amb ++ recs.dropLast) ++ { rlast with is_current := false } :: [] := by
      conv_lhs => rw [← hsplit]
      rw [show amb ++ (recs.dropLast ++ [rlast]) =
        (amb ++ recs.dropLast) ++ rlast :: [] from by simp]
      apply update_version_status_unique
      intro u hu
      rcases List.mem_append.mp hu with hua | hud
      · intro hcon
        apply hamb_ver u hua
        rw [hcon]
        exact hrl_ver_mem
      · exact hdrop_ne u hud
    -- every lineage record's version number stays at most k
    have hvn_lt : ∀ v ∈ recs, v.version_number < k + 1 := by
      intro v hv
      have h1 : v.version_number ∈ recs.map (fun v => v.version_number) :=
        List.mem_map.mpr ⟨v, hv, rfl⟩
      rw [hnumm] at h1
      have := (List.mem_range'_1).mp h1
      omega
    -- the save appends (no existing record has the key (root, k+1))
    have hsave : save_version_metadata
        ((amb ++ recs.dropLast) ++ { rlast with is_current := false } :: [])
        (new_version_data d root (k + 1) (some changes)) =
        ((amb ++ recs.dropLast) ++ { rlast with is_current := false } :: []) ++
          [new_version_data d root (k + 1) (some changes)] := by
      apply save_append
      intro v hv hcon
      rcases List.mem_append.mp hv with hva | hvl
      · rcases List.mem_append.mp hva with hvamb | hvdrop
        · exact hamb_doc v hvamb hcon.1
        · have : v ∈ recs := by
            rw [← hsplit]
            exact List.mem_append.mpr (Or.inl hvdrop)
          have := hvn_lt v this
          have h2 := hcon.2
          simp only [new_version_data] at h2
          omega
      · have hveq : v = { rlast with is_current := false } := List.mem_singleton.mp hvl
        have : rlast ∈ recs := hrlast_mem
        have h1 := hvn_lt rlast this
        have h2 := hcon.2
        rw [hveq] at h2
        simp only [new_version_data] at h2
        omega
    refine ⟨recs.dropLast ++ [{ rlast with is_current := false }] ++
      [new_version_data d root (k + 1) (some changes)], ?_, ?_, ?_, ?_, ?_⟩
    · rw [hst', hup, hsave]
      simp
    · rw [map_flip_append (f := fun v => v.document_id) hsplit
        (x := { rlast with is_current := false }) rfl, hdocm,
        show (new_version_data d root (k + 1) (some changes)).document_id = root from rfl,
        List.replicate_succ' k root]
    · rw [map_flip_append (f := fun v => v.version_id) hsplit
        (x := { rlast with is_current := false }) rfl, hverm,
        show (new_version_data d root (k + 1) (some changes)).version_id = d.id from rfl,
        show ids.take (k + 1) = ids.take k ++ (ids[k]?).toList from List.take_succ, hid]
      rfl
    · rw [map_flip_append (f := fun v => v.version_number) hsplit
        (x := { rlast with is_current := false }) rfl, hnumm,
        show (new_version_data d root (k + 1) (some changes)).version_number = k + 1
          from rfl,
        List.range'_concat 1 k, show 1 + 1 * k = k + 1 from by omega]
    · have h1 : recs.dropLast.map (fun v => v.is_current) ++ [rlast.is_current] =
          List.replicate (k - 1) false ++ [true] := by
        calc recs.dropLast.map (fun v => v.is_current) ++ [rlast.is_current]
            = (recs.dropLast ++ [rlast]).map (fun v => v.is_current) := by simp
          _ = recs.map (fun v => v.is_current) := by rw [hsplit]
          _ = List.replicate (k - 1) false ++ [true] := hcurm
      have h2 := List.append_inj' h1 rfl
      simp only [List.map_append, List.map_cons, List.map_nil, new_version_data]
      rw [h2.1]
      rw [show List.replicate (k + 1 - 1) false = List.replicate (k - 1) false ++ [false]
        from by rw [show k + 1 - 1 = (k - 1) + 1 from by omega]; exact
          List.replicate_succ' (k - 1) false]

theorem build_fold_inv (ds : DocStore) (amb : List VersionRec) (root : String)
    (ids : List String)
    (hroot : root ≠ "") (hnodup : ids.Nodup)
    (hamb_doc : ∀ v ∈ amb, v.document_id ≠ root)
    (hamb_ver : ∀ v ∈ amb, v.version_id ∉ ids) :
    ∀ (docs : List Doc) (k : ℕ) (st st' : List VersionRec),
    (∀ m (d' : Doc), docs[m]? = some d' → ids[k + m]? = some d'.id) →
    1 ≤ k →
    lineageCore root ids amb k st →
    List.foldlM (fun s d' => (create_version ds s d' (some root)).map fun p => p.2) st docs
      = .ok st' →
    lineageCore root ids amb (k + docs.length) st' := by
  intro docs
  induction docs with
  | nil =>
    intro k st st' _ _ hinv hfold
    simp only [List.foldlM_nil, pure, Except.pure] at hfold
    injection hfold with hfold'
    rw [List.length_nil, ← hfold']
    exact hinv
  | cons d rest ih =>
    intro k st st' hids hk hinv hfold
    rw [List.foldlM_cons] at hfold
    cases hc : create_version ds st d (some root) with
    | error e =>
      rw [hc] at hfold
      simp [Except.map, bind, Except.bind] at hfold
    | ok p =>
      obtain ⟨vd, st1⟩ := p
      rw [hc] at hfold
      simp only [Except.map, bind, Except.bind] at hfold
      have hstep := lineage_step ds amb root ids k d st st1 vd hroot hk
        (hids 0 d (by simp)) hnodup hamb_doc hamb_ver hinv hc
      have hids' : ∀ m (d' : Doc), rest[m]? = some d' → ids[k + 1 + m]? = some d'.id := by
        intro m d' hm
        have h1 := hids (m + 1) d' (by rw [List.getElem?_cons_succ]; exact hm)
        rw [show k + (m + 1) = k + 1 + m from by omega] at h1
        exact h1
      have hres := ih (k + 1) st1 st' hids' (by omega) hstep hfold
      rw [List.length_cons, show k + (rest.length + 1) = k + 1 + rest.length from by omega]
      exact hres

/-- C2: a lineage built from an empty-or-unrelated ambient store by one
rootless `create_version` call followed by calls with `parent_id` equal to
the root document's id satisfies, after every prefix of `k ≥ 1` calls: the
persisted records of the lineage carry exactly the version numbers
`1..k`, and exactly one of them has `is_current = true` — the one numbered
`k` (so each call for `N > 1` flipped the previously current record). -/
theorem claim_C2 (ds : DocStore) (amb : List VersionRec) (d0 : Doc) (docs : List Doc)
    (st : List VersionRec)
    (hroot : d0.id ≠ "")
    (hnodup : ((d0 :: docs).map fun d => d.id).Nodup)
    (hamb_doc : ∀ v ∈ amb, v.document_id ≠ d0.id)
    (hamb_ver : ∀ v ∈ amb, v.version_id ∉ (d0 :: docs).map fun d => d.id)
    (hok : build_lineage ds amb (d0 :: docs) = .ok st)
    (k : ℕ) (hk1 : 1 ≤ k) (hk2 : k ≤ docs.length + 1) :
    ∃ stk, build_lineage ds amb ((d0 :: docs).take k) = .ok stk ∧
      ((stk.filter fun v => v.document_id == d0.id).map fun v => v.version_number) =
        List.range' 1 k ∧
      (((stk.filter fun v => v.document_id == d0.id).filter fun v => v.is_current).map
        fun v => v.version_number) = [k] := by
  have hbase_eval := create_version_root_eq ds amb d0
    (fun v hv hcon => hamb_doc v hv hcon.1)
  simp only [build_lineage] at hok
  rw [hbase_eval,
    show Except.map (fun p : VersionRec × List VersionRec => p.2)
      (Except.ok (new_version_data d0 d0.id 1 none,
        amb ++ [new_version_data d0 d0.id 1 none])) =
      Except.ok (amb ++ [new_version_data d0 d0.id 1 none]) from rfl] at hok
  rw [show ∀ f : List VersionRec → Except LoadErr (List VersionRec),
      ((Except.ok (amb ++ [new_version_data d0 d0.id 1 none]) :
        Except LoadErr (List VersionRec)) >>= f) = f (amb ++ [new_version_data d0 d0.id 1 none])
      from fun f => rfl] at hok
  -- the fold over the remaining documents, split at the prefix of length k-1
  have hsplitlist : docs = docs.take (k - 1) ++ docs.drop (k - 1) :=
    (List.take_append_drop _ _).symm
  rw [hsplitlist, List.foldlM_append] at hok
  cases hpre : List.foldlM
      (fun s d' => (create_version ds s d' (some d0.id)).map fun p => p.2)
      (amb ++ [new_version_data d0 d0.id 1 none]) (docs.take (k - 1)) with
  | error e =>
    rw [hpre] at hok
    simp [bind, Except.bind] at hok
  | ok stk =>
    rw [hpre] at hok
    have hinv1 : lineageCore d0.id ((d0 :: docs).map fun d => d.id) amb 1
        (amb ++ [new_version_data d0 d0.id 1 none]) := by
      refine ⟨[new_version_data d0 d0.id 1 none], rfl, ?_, ?_, ?_, ?_⟩
      · simp [new_version_data]
      · simp [new_version_data]
      · rfl
      · rfl
    have hids_pre : ∀ m (d' : Doc), (docs.take (k - 1))[m]? = some d' →
        ((d0 :: docs).map fun d => d.id)[1 + m]? = some d'.id := by
      intro m d' hm
      have hmlt : m < k - 1 := by
        have h2 : m < (docs.take (k - 1)).length := (List.getElem?_eq_some_iff.mp hm).1
        simp [List.length_take] at h2
        omega
      have hm' : docs[m]? = some d' := by
        rw [List.getElem?_take, if_pos hmlt] at hm
        exact hm
      rw [show (1 : ℕ) + m = m + 1 from by omega, List.map_cons, List.getElem?_cons_succ,
        List.getElem?_map, hm']
      rfl
    have hinvk := build_fold_inv ds amb d0.id ((d0 :: docs).map fun d => d.id)
      hroot hnodup hamb_doc hamb_ver (docs.take (k - 1)) 1
      (amb ++ [new_version_data d0 d0.id 1 none]) stk hids_pre (le_refl 1) hinv1 hpre
    have hlen_take : (docs.take (k - 1)).length = k - 1 := by
      rw [List.length_take]
      omega
    rw [hlen_take, show 1 + (k - 1) = k from by omega] at hinvk
    obtain ⟨recs, hstk, hdocm, hverm, hnumm, hcurm⟩ := hinvk
    have hfil : stk.filter (fun v => v.document_id == d0.id) = recs := by
      rw [hstk]
      exact filter_lineage hamb_doc (mem_map_replicate hdocm)
    refine ⟨stk, ?_, ?_, ?_⟩
    · have htake : (d0 :: docs).take k = d0 :: docs.take (k - 1) := by
        obtain ⟨m, rfl⟩ : ∃ m, k = m + 1 := ⟨k - 1, by omega⟩
        rw [List.take_succ_cons, Nat.add_sub_cancel]
      rw [htake]
      simp only [build_lineage]
      rw [hbase_eval,
        show Except.map (fun p : VersionRec × List VersionRec => p.2)
          (Except.ok (new_version_data d0 d0.id 1 none,
            amb ++ [new_version_data d0 d0.id 1 none])) =
          Except.ok (amb ++ [new_version_data d0 d0.id 1 none]) from rfl]
      rw [show ∀ f : List VersionRec → Except LoadErr (List VersionRec),
          ((Except.ok (amb ++ [new_version_data d0 d0.id 1 none]) :
            Except LoadErr (List VersionRec)) >>= f) =
          f (amb ++ [new_version_data d0 d0.id 1 none]) from fun f => rfl]
      exact hpre
    · rw [hfil]
      exact hnumm
    · rw [hfil]
      have := filter_current recs 1 k hk1 hcurm hnumm
      rw [this]
      rw [show 1 + k - 1 = k from by omega]

def docA : Doc :=
  { id := "a1", upload_date := "u1", filename := "fa", file_size := 1, word_count := 1,
    page_count := 1, clauses := [], risk_assessment := none }

def docB : Doc :=
  { id := "a2", upload_date := "u2", filename := "fb", file_size := 2, word_count := 2,
    page_count := 2, clauses := [], risk_assessment := none }

def v1C2 : VersionRec :=
  { version_id := "a1", document_id := "a1", version_number := 1, upload_date := "u1",
    filename := "fa", file_size := 1, word_count := 1, page_count := 1, is_current := true,
    changes_summary := none }

def v1C2f : VersionRec :=
  { version_id := "a1", document_id := "a1", version_number := 1, upload_date := "u1",
    filename := "fa", file_size := 1, word_count := 1, page_count := 1,
    is_current := false, changes_summary := none }

def v2C2 : VersionRec :=
  { version_id := "a2", document_id := "a1", version_number := 2, upload_date := "u2",
    filename := "fb", file_size := 2, word_count := 2, page_count := 2, is_current := true,
    changes_summary := some chEx }

theorem build_lineage_ex : build_lineage dsPrevEx [] [docA, docB] = .ok [v1C2f, v2C2] := by
  have hstep2 := create_version_step_eq dsPrevEx [] [v1C2] "a1" docB 1 v1C2
    (by decide) (by simp) (by simp [v1C2]) (by simp [v1C2]) (le_refl 1) rfl
  rw [show v1C2.version_id = "a1" from rfl,
    calc_changes_trivial "a1" docB rfl rfl] at hstep2
  simp only [Except.map, List.nil_append] at hstep2
  rw [show update_version_status [v1C2] "a1" false = [v1C2f] from rfl] at hstep2
  rw [show save_version_metadata [v1C2f] (new_version_data docB "a1" 2 (some chEx)) =
    [v1C2f, v2C2] from rfl] at hstep2
  simp only [build_lineage]
  rw [show create_version dsPrevEx [] docA none = .ok (v1C2, [v1C2]) from rfl]
  rw [show Except.map (fun p : VersionRec × List VersionRec => p.2)
    (Except.ok (v1C2, [v1C2])) = (Except.ok [v1C2] : Except LoadErr _) from rfl]
  rw [show ∀ f : List VersionRec → Except LoadErr (List VersionRec),
    ((Except.ok [v1C2] : Except LoadErr (List VersionRec)) >>= f) = f [v1C2]
    from fun f => rfl]
  rw [List.foldlM_cons, show docA.id = "a1" from rfl, hstep2]
  rfl

theorem claim_C2_witness :
    ∃ stk, build_lineage dsPrevEx [] ((docA :: [docB]).take 2) = .ok stk ∧
      ((stk.filter fun v => v.document_id == docA.id).map fun v => v.version_number) =
        List.range' 1 2 ∧
      (((stk.filter fun v => v.document_id == docA.id).filter fun v => v.is_current).map
        fun v => v.version_number) = [2] :=
  claim_C2 dsPrevEx [] docA [docB] [v1C2f, v2C2] (by decide) (by decide)
    (fun v hv => absurd hv (List.not_mem_nil v))
    (fun v hv => absurd hv (List.not_mem_nil v))
    build_lineage_ex 2 (by omega) (by simp)
